import Mathlib

/-!
# Build-your-own-shell: the command execution engine of `Shell.c`

A shallow embedding of `shell_loop`'s tokenizer and of `execute_command`
(`src/Shell.c`), followed by theorems about them.

Modelling conventions.

* A C string is the list of characters before its NUL terminator; a `char *`
  is `Option Token`, with `none` for `NULL`.
* `char *args[MAX_ARGS]` is a list of slots.  It is declared outside the
  `do ... while` loop of `shell_loop`, so a call of the tokenizer starts from
  whatever the previous iteration left in it.
* Every system call whose result the code tests takes its return value from
  an oracle, `Sys`.  `fork` returns in two processes; `execute_command` is
  one function of the value `fork` returned, so the same definition describes
  the control process (`fork1 > 0`), the child (`fork1 = 0`) and, behind the
  second `fork`, the two sides of a pipe.
* Each process run yields an `Outcome`, the final contents of its copy of
  `args`, and the ordered trace of its slot accesses and system calls.
-/

namespace Shell

/-! ## Data model -/

/-- A C string: the characters before the terminator. -/
abbrev Token := List Char

/-- A `char *`: `none` is `NULL`. -/
abbrev Slot := Option Token

/-- The array `char *args[MAX_ARGS]`. -/
abbrev Args := List Slot

/-- Line 10: `#define MAX_CMD_LEN 1024`. -/
def MAX_CMD_LEN : Nat := 1024

/-- Line 11: `#define MAX_ARGS 64`. -/
def MAX_ARGS : Nat := 64

/-- The string terminator. -/
def NUL : Char := '\x00'

/-- The delimiter set `" \t\r\n\a"` of lines 104 and 109. -/
def delim : List Char := [' ', '\t', '\r', '\n', '\x07']

/-- The operator tokens compared with `strcmp` in `execute_command`. -/
def AMP : Token := ['&']

/-- The token `<`. -/
def LT : Token := ['<']

/-- The token `>`. -/
def GT : Token := ['>']

/-- The token `>>`. -/
def GTGT : Token := ['>', '>']

/-- The token `|`. -/
def PIPE : Token := ['|']

/-- The value of `args[i]`.  An index outside the array reads as `NULL`; the
access is recorded in the trace all the same, and on a tokenizer-produced
vector no such access happens. -/
def rd (args : Args) (i : Nat) : Slot := args.getD i none

/-- Where a standard stream of a process points. -/
inductive Stream where
  | inherited
  | inFile (path : Token)
  | outFile (path : Token) (append : Bool)
  | pipeRead
  | pipeWrite
  deriving DecidableEq

/-- What a process does that is visible outside the function. -/
inductive Event where
  | load (i : Nat)
  | store (i : Nat)
  | fork (ret : Int)
  | pipe (ret : Int)
  | openRead (path : Token) (ret : Int)
  | openWrite (path : Token) (append : Bool) (ret : Int)
  | chdir (path : Token) (ret : Int)
  | waitpid (pid : Int)
  | execvp (file : Slot) (argv : List Token)
  | perror (msg : String)
  | print (msg : String)
  | exit (status : Int)
  deriving DecidableEq

/-- How the run of `execute_command` ends in one process. -/
inductive Outcome where
  | returned (status : Int)
  | exited (status : Int)
  | replaced (file : Token) (argv : List Token) (stdin stdout : Stream)
  | undefined
  deriving DecidableEq

/-- Return values of the system calls, chosen by the environment. -/
structure Sys where
  fork1 : Int
  chdir : Int
  open_in : Int
  open_out : Int
  pipe : Int
  fork2 : Int
  exec_ok : Bool
  deriving DecidableEq

/-- The local variables of the external-command path (lines 137-165). -/
structure Locals where
  background : Int
  arg_count : Nat
  inputFile : Slot
  outputFile : Slot
  append : Int
  pipe_pos : Int
  deriving DecidableEq

/-- One process's run of `execute_command`. -/
structure Result where
  outcome : Outcome
  args : Args
  trace : List Event
  locals : Option Locals
  deriving DecidableEq

/-! ## The tokenizer (lines 100-111) -/

/-- The libc `strcspn(s, reject)`: length of the initial segment of `s` free of
the characters of `reject`. -/
def strcspn (s reject : List Char) : Nat :=
  (s.takeWhile (fun c => c ≠ NUL ∧ c ∉ reject)).length

/-- The libc `strtok` on the delimiter set `delim`, as a function of the string
at the scan pointer: the token returned (or `NULL`) and the string at the saved
pointer. -/
def strtok (s : List Char) : Option Token × List Char :=
  let s1 := s.dropWhile (fun c => c ∈ delim)
  match s1 with
  | [] => (none, [])
  | c :: _ =>
    if c = NUL then (none, s1)
    else
      let tok := s1.takeWhile (fun c => c ≠ NUL ∧ c ∉ delim)
      match s1.drop tok.length with
      | [] => (some tok, [])
      | d :: rest => if d = NUL then (some tok, d :: rest) else (some tok, rest)

/-- Lines 106-110: `while (token != NULL && i < MAX_ARGS - 1)`. -/
def tokenLoop : Nat → Option Token → List Char → Nat → Args → Nat × Args
  | 0, _, _, i, args => (i, args)
  | fuel + 1, token, save, i, args =>
    match token with
    | none => (i, args)
    | some tok =>
      if i < MAX_ARGS - 1 then
        tokenLoop fuel (strtok save).1 (strtok save).2 (i + 1) (args.set i (some tok))
      else (i, args)

/-- Lines 103-111: the parse of `cmd` into `args`. -/
def tokenize (args : Args) (cmd : List Char) : Args :=
  let cmd1 := cmd.set (strcspn cmd ['\n']) NUL
  let r := tokenLoop MAX_ARGS (strtok cmd1).1 (strtok cmd1).2 0 args
  r.2.set r.1 none

/-! ## Built-in commands (lines 28-44, 280-320) -/

/-- Lines 280-292. -/
def shell_cd (sys : Sys) (args : Args) : Int × List Event :=
  match rd args 1 with
  | none => (1, [.load 1, .print "shell: expected argument to \"cd\"\n"])
  | some dir =>
    if sys.chdir ≠ 0 then (1, [.load 1, .chdir dir sys.chdir, .perror "shell"])
    else (1, [.load 1, .chdir dir sys.chdir])

/-- Lines 318-320. -/
def shell_exit (_sys : Sys) (_args : Args) : Int × List Event := (0, [])

/-- Lines 28-32. -/
def builtin_str : List Token := [['c', 'd'], ['e', 'x', 'i', 't'], ['h', 'e', 'l', 'p']]

/-- Lines 42-44. -/
def num_builtins : Nat := builtin_str.length

/-- Lines 299-311. -/
def shell_help (_sys : Sys) (_args : Args) : Int × List Event :=
  (1, [.print "My Advanced C Shell\n",
       .print "Type program names and arguments, and hit enter.\n",
       .print "The following are built in:\n"]
      ++ builtin_str.map (fun s => .print ("  " ++ String.mk s ++ "\n"))
      ++ [.print "Use the man command for information on other programs.\n",
          .print "Supports piping ('|'), I/O redirection ('<', '>', '>>'), and background tasks ('&').\n"])

/-- Lines 35-39. -/
def builtin_func : List (Sys → Args → Int × List Event) := [shell_cd, shell_exit, shell_help]

/-- Lines 128-134: the first table entry whose name equals `args[0]`. -/
def find_builtin (cmd : Token) : Option (Sys → Args → Int × List Event) :=
  ((builtin_str.zip builtin_func).find? (fun e => decide (cmd = e.1))).map (fun e => e.2)

/-! ## The external-command path (lines 137-269) -/

/-- Lines 142-144: `while (args[arg_count] != NULL) arg_count++`. -/
def countLoop : Nat → Args → Nat → Nat × List Event
  | 0, _, n => (n, [])
  | fuel + 1, args, n =>
    match rd args n with
    | none => (n, [.load n])
    | some _ => ((countLoop fuel args (n + 1)).1, .load n :: (countLoop fuel args (n + 1)).2)

/-- The variables the operator scan updates. -/
structure Scan where
  args : Args
  inputFile : Slot
  outputFile : Slot
  append : Int
  pipe_pos : Int
  trace : List Event
  deriving DecidableEq

/-- Lines 168-184: the scan for redirection and pipe symbols, from index `i`. -/
def scanLoop : Nat → Nat → Scan → Scan
  | 0, _, st => st
  | fuel + 1, i, st =>
    match rd st.args i with
    | none => { st with trace := st.trace ++ [.load i] }
    | some tok =>
      if tok = LT then
        scanLoop fuel (i + 1)
          { st with inputFile := rd st.args (i + 1), args := st.args.set i none,
                    trace := st.trace ++ [.load i, .load (i + 1), .store i] }
      else if tok = GT then
        scanLoop fuel (i + 1)
          { st with outputFile := rd st.args (i + 1), args := st.args.set i none,
                    trace := st.trace ++ [.load i, .load (i + 1), .store i] }
      else if tok = GTGT then
        scanLoop fuel (i + 1)
          { st with outputFile := rd st.args (i + 1), append := 1, args := st.args.set i none,
                    trace := st.trace ++ [.load i, .load (i + 1), .store i] }
      else if tok = PIPE then
        { st with pipe_pos := i, args := st.args.set i none,
                  trace := st.trace ++ [.load i, .store i] }
      else scanLoop fuel (i + 1) { st with trace := st.trace ++ [.load i] }

/-- The argument list `execvp` reads at `&args[start]`: the slots up to the
first null pointer. -/
def argvAt (args : Args) (start : Nat) : List Token :=
  ((args.drop start).takeWhile Option.isSome).filterMap id

/-- A call `execvp(args[start], &args[start])` with the failure branch that
follows each of the three calls (lines 232-235, 244-247, 251-254). -/
def execvp (sys : Sys) (args : Args) (start : Nat) (stdin stdout : Stream) (msg : String) :
    Outcome × List Event :=
  let argv := argvAt args start
  let loads := (List.range (argv.length + 1)).map (fun k => Event.load (start + k))
  match rd args start with
  | none => (.undefined, [.load start, .execvp none []])
  | some file =>
    if sys.exec_ok then (.replaced file argv stdin stdout, loads ++ [.execvp (some file) argv])
    else (.exited 1, loads ++ [.execvp (some file) argv, .perror msg, .exit 1])

/-- Lines 213-255: the pipe and the program replacement. -/
def launch (sys : Sys) (sc : Scan) (stdin stdout : Stream) : Outcome × List Event :=
  if sc.pipe_pos ≠ -1 then
    if sys.pipe < 0 then (.exited 1, [.pipe sys.pipe, .perror "pipe failed", .exit 1])
    else if sys.fork2 < 0 then
      (.exited 1, [.pipe sys.pipe, .fork sys.fork2, .perror "pipe fork failed", .exit 1])
    else if sys.fork2 = 0 then
      let r := execvp sys sc.args (sc.pipe_pos + 1).toNat .pipeRead stdout
        "execvp for piped command failed"
      (r.1, [.pipe sys.pipe, .fork sys.fork2] ++ r.2)
    else
      let r := execvp sys sc.args 0 stdin .pipeWrite "execvp for first command failed"
      (r.1, [.pipe sys.pipe, .fork sys.fork2, .waitpid sys.fork2] ++ r.2)
  else execvp sys sc.args 0 stdin stdout "execvp failed"

/-- Lines 196-210, then `launch`. -/
def redirect_output (sys : Sys) (sc : Scan) (stdin : Stream) : Outcome × List Event :=
  match sc.outputFile with
  | none => launch sys sc stdin .inherited
  | some f =>
    if sys.open_out < 0 then
      (.exited 1, [.openWrite f (decide (sc.append ≠ 0)) sys.open_out,
                   .perror "open output file failed", .exit 1])
    else
      let r := launch sys sc stdin (.outFile f (decide (sc.append ≠ 0)))
      (r.1, .openWrite f (decide (sc.append ≠ 0)) sys.open_out :: r.2)

/-- Lines 187-195, then `redirect_output`. -/
def redirect_input (sys : Sys) (sc : Scan) : Outcome × List Event :=
  match sc.inputFile with
  | none => redirect_output sys sc .inherited
  | some f =>
    if sys.open_in < 0 then
      (.exited 1, [.openRead f sys.open_in, .perror "open input file failed", .exit 1])
    else
      let r := redirect_output sys sc (.inFile f)
      (r.1, .openRead f sys.open_in :: r.2)

/-- Lines 162-184: the operator scan of the child, from fresh locals. -/
def operator_scan (args : Args) : Scan :=
  scanLoop (args.length + 1) 0
    { args := args, inputFile := none, outputFile := none, append := 0, pipe_pos := -1,
      trace := [] }

/-- Lines 121-270. -/
def execute_command (sys : Sys) (args : Args) : Result :=
  match rd args 0 with
  | none => { outcome := .returned 1, args := args, trace := [.load 0], locals := none }
  | some cmd =>
    match find_builtin cmd with
    | some f =>
      { outcome := .returned (f sys args).1, args := args, trace := .load 0 :: (f sys args).2,
        locals := none }
    | none =>
      let pid := sys.fork1
      let cnt := countLoop (args.length + 1) args 0
      let arg_count := cnt.1
      let amp : Bool := decide (0 < arg_count) && decide (rd args (arg_count - 1) = some AMP)
      let background : Int := if amp then 1 else 0
      let args1 := if amp then args.set (arg_count - 1) none else args
      let tr1 := [.load 0, .fork pid] ++ cnt.2
        ++ (if 0 < arg_count then [Event.load (arg_count - 1)] else [])
        ++ (if amp then [Event.store (arg_count - 1)] else [])
      if pid < 0 then
        { outcome := .returned 1, args := args1, trace := tr1 ++ [.perror "fork failed"],
          locals := some ⟨background, arg_count, none, none, 0, -1⟩ }
      else if pid = 0 then
        let sc := operator_scan args1
        let r := redirect_input sys sc
        { outcome := r.1, args := sc.args, trace := tr1 ++ sc.trace ++ r.2,
          locals := some ⟨background, arg_count, sc.inputFile, sc.outputFile, sc.append,
            sc.pipe_pos⟩ }
      else if background = 0 then
        { outcome := .returned 1, args := args1, trace := tr1 ++ [.waitpid pid],
          locals := some ⟨background, arg_count, none, none, 0, -1⟩ }
      else
        { outcome := .returned 1, args := args1,
          trace := tr1 ++ [.print ("Started background job with PID: " ++ toString pid ++ "\n")],
          locals := some ⟨background, arg_count, none, none, 0, -1⟩ }

/-! ## Notions used to state the properties -/

/-- Membership in the delimiter set, as a Boolean test. -/
def isDelim (c : Char) : Bool := decide (c ∈ delim)

/-- The C string held in a buffer: the characters before the first NUL. -/
def cstring (buf : List Char) : List Char := buf.takeWhile (fun c => decide (c ≠ NUL))

/-- A line cut at its first newline. -/
def cutAtNewline (s : List Char) : List Char := s.takeWhile (fun c => decide (c ≠ '\n'))

/-- The maximal runs of non-delimiter characters of a string, in order: the
non-empty pieces left when the string is split at every delimiter. -/
def maximalRuns (s : List Char) : List Token :=
  (s.splitOnP isDelim).filter (fun r => decide (r ≠ []))

/-- A sentinel-terminated argument vector: the tokens, the `NULL` sentinel, and
whatever the array holds behind it. -/
def vec (toks : List Token) (stale : Args) : Args := toks.map some ++ none :: stale

/-- The tokens that remain once a trailing `&` has been removed. -/
def live (toks : List Token) : List Token :=
  if toks.getLast? = some AMP then toks.dropLast else toks

/-- The index of the end sentinel: the number of non-null slots in front of the
first `NULL`. -/
def sentinelIndex (args : Args) : Nat := (args.takeWhile Option.isSome).length

/-- The index of the first `|` of a token list (its length when it has none). -/
def pipeIndex (l : List Token) : Nat := (l.takeWhile (fun t => decide (t ≠ PIPE))).length

/-- A slot access: the index a `load` or `store` event touches. -/
def Event.slot : Event → Option Nat
  | .load i => some i
  | .store i => some i
  | _ => none

/-- The events by which a process is created or its image replaced. -/
def Event.createsProcess : Event → Bool
  | .fork _ => true
  | .pipe _ => true
  | .execvp _ _ => true
  | _ => false

/-- The process identifiers a trace waits on, in order. -/
def waits (tr : List Event) : List Int :=
  tr.filterMap (fun e => match e with
    | .waitpid p => some p
    | _ => none)

/-- The part of the locals the operator scan decides. -/
def Locals.plan (loc : Locals) : Slot × Slot × Int × Int :=
  (loc.inputFile, loc.outputFile, loc.append, loc.pipe_pos)

/-- The built-in names of lines 28-32. -/
def CD : Token := ['c', 'd']

/-- The name `exit`. -/
def EXIT : Token := ['e', 'x', 'i', 't']

/-- The name `help`. -/
def HELP : Token := ['h', 'e', 'l', 'p']

/-! ## Auxiliary definitions of the proofs

The loops of the source run over array indices; the proofs go through their
counterparts over the list of tokens in front of the sentinel. -/

/-- The array after storing the tokens `ts` in the slots `i`, `i + 1`, ... -/
def writeSlots (args : Args) (i : Nat) : List Token → Args
  | [] => args
  | t :: ts => writeSlots (args.set i (some t)) (i + 1) ts

/-- The operator scan of lines 168-184 as a recursion over the tokens in front
of the sentinel; `st.args` collects the slots already passed. -/
def scanList : List Token → Nat → Scan → Scan
  | [], i, st => { st with args := st.args ++ [none], trace := st.trace ++ [.load i] }
  | t :: ts, i, st =>
    if t = LT then
      scanList ts (i + 1)
        { st with inputFile := ts.head?, args := st.args ++ [none],
                  trace := st.trace ++ [.load i, .load (i + 1), .store i] }
    else if t = GT then
      scanList ts (i + 1)
        { st with outputFile := ts.head?, args := st.args ++ [none],
                  trace := st.trace ++ [.load i, .load (i + 1), .store i] }
    else if t = GTGT then
      scanList ts (i + 1)
        { st with outputFile := ts.head?, append := 1, args := st.args ++ [none],
                  trace := st.trace ++ [.load i, .load (i + 1), .store i] }
    else if t = PIPE then
      { st with pipe_pos := i, args := st.args ++ none :: (ts.map some ++ [none]),
                trace := st.trace ++ [.load i, .store i] }
    else scanList ts (i + 1) { st with args := st.args ++ [some t], trace := st.trace ++ [.load i] }

/-- A scan result over the slots in front of the sentinel, completed by the
slots behind it. -/
def withStale (stale : Args) (r : Scan) : Scan :=
  ⟨r.args ++ stale, r.inputFile, r.outputFile, r.append, r.pipe_pos, r.trace⟩

/-- The slots behind the sentinel after the background check: the removed `&`
leaves a second `NULL`. -/
def staleAfter (toks : List Token) (stale : Args) : Args :=
  if toks.getLast? = some AMP then none :: stale else stale

/-- The value of `background` after line 150. -/
def bgFlag (toks : List Token) : Int := if toks.getLast? = some AMP then 1 else 0

/-- The trace of lines 123-150 on an external command. -/
def prologue (pid : Int) (toks : List Token) : List Event :=
  [.load 0, .fork pid] ++ (List.range' 0 (toks.length + 1)).map Event.load
    ++ [Event.load (toks.length - 1)]
    ++ (if toks.getLast? = some AMP then [Event.store (toks.length - 1)] else [])

/-- The scan of the child on the live tokens. -/
def planOf (toks : List Token) (stale : Args) : Scan :=
  withStale (staleAfter toks stale) (scanList (live toks) 0 ⟨[], none, none, 0, -1, []⟩)

/-- The slots in front of the sentinel after the operator scan: every
redirection operator up to the first `|`, and that `|`, replaced by `NULL`. -/
def maskOps : List Token → List Slot
  | [] => []
  | t :: ts =>
    if t = LT ∨ t = GT ∨ t = GTGT then none :: maskOps ts
    else if t = PIPE then none :: ts.map some
    else some t :: maskOps ts

/-- Where standard input points once lines 187-195 have succeeded. -/
def stdinOf (sc : Scan) : Stream :=
  match sc.inputFile with
  | none => .inherited
  | some f => .inFile f

/-- Where standard output points once lines 196-210 have succeeded. -/
def stdoutOf (sc : Scan) : Stream :=
  match sc.outputFile with
  | none => .inherited
  | some f => .outFile f (decide (sc.append ≠ 0))

/-- The part of a scan result that does not depend on the array contents. -/
def Scan.plan (sc : Scan) : Slot × Slot × Int × Int :=
  (sc.inputFile, sc.outputFile, sc.append, sc.pipe_pos)

/-! ## Lemmas -/

theorem maximalRuns_nil : maximalRuns [] = [] := by
  simp [maximalRuns]

theorem maximalRuns_cons_delim (c : Char) (s : List Char) (h : isDelim c = true) :
    maximalRuns (c :: s) = maximalRuns s := by
  simp [maximalRuns, h]

theorem maximalRuns_single (t : List Char) (ht : t ≠ []) (h : ∀ x ∈ t, ¬ isDelim x = true) :
    maximalRuns t = [t] := by
  simp [maximalRuns, List.splitOnP_eq_single isDelim t h, ht]

theorem maximalRuns_first (t : List Char) (ht : t ≠ []) (h : ∀ x ∈ t, ¬ isDelim x = true)
    (d : Char) (hd : isDelim d = true) (s : List Char) :
    maximalRuns (t ++ d :: s) = t :: maximalRuns s := by
  simp [maximalRuns, List.splitOnP_first isDelim t h d hd, ht]

theorem splitOnP_no_sep (p : Char → Bool) (s : List Char) :
    ∀ r ∈ s.splitOnP p, ∀ x ∈ r, ¬ p x = true := by
  induction s with
  | nil => simp
  | cons c s ih =>
    rw [List.splitOnP_cons]
    by_cases hc : p c = true
    · simp only [hc, if_true, List.mem_cons]
      rintro r (rfl | hr)
      · simp
      · exact ih r hr
    · simp only [hc]
      cases hs : s.splitOnP p with
      | nil => simp
      | cons a l =>
        rw [hs] at ih
        intro r hr
        rcases List.mem_cons.1 hr with hr | hr
        · intro x hx
          rw [hr] at hx
          rcases List.mem_cons.1 hx with hx | hx
          · rw [hx]; exact hc
          · exact ih a (List.mem_cons_self _ _) x hx
        · exact ih r (List.mem_cons_of_mem _ hr)

theorem maximalRuns_mem (s : List Char) (t : Token) (ht : t ∈ maximalRuns s) :
    t ≠ [] ∧ ∀ c ∈ t, c ∉ delim := by
  simp only [maximalRuns, List.mem_filter, decide_eq_true_eq] at ht
  refine ⟨ht.2, fun c hc hd => ?_⟩
  exact splitOnP_no_sep isDelim s t ht.1 c hc (by simp [isDelim, hd])

theorem drop_length_takeWhile (q : Char → Bool) (l : List Char) :
    l.drop (l.takeWhile q).length = l.dropWhile q := by
  induction l with
  | nil => rfl
  | cons a l ih =>
    by_cases h : q a = true
    · simp [List.takeWhile_cons, List.dropWhile_cons, h, ih]
    · simp [List.takeWhile_cons, List.dropWhile_cons, h]

theorem delim_ne_NUL (c : Char) (h : c ∈ delim) : c ≠ NUL := by
  intro hc
  subst hc
  revert h
  decide

theorem cstring_cons_of_ne (c : Char) (b : List Char) (h : c ≠ NUL) :
    cstring (c :: b) = c :: cstring b := by
  simp [cstring, h]

theorem cstring_cons_NUL (b : List Char) : cstring (NUL :: b) = [] := by
  simp [cstring]

theorem strtok_cons_delim (c : Char) (b : List Char) (h : c ∈ delim) :
    strtok (c :: b) = strtok b := by
  simp [strtok, List.dropWhile_cons, h]

theorem strtok_cons_NUL (b : List Char) : strtok (NUL :: b) = (none, NUL :: b) := by
  have h : NUL ∉ delim := by decide
  simp [strtok, List.dropWhile_cons, h]

theorem strtok_cons_char (c : Char) (b : List Char) (hd : c ∉ delim) (hn : c ≠ NUL) :
    strtok (c :: b) =
      match b.dropWhile (fun c => decide (c ≠ NUL ∧ c ∉ delim)) with
      | [] => (some (c :: b.takeWhile (fun c => decide (c ≠ NUL ∧ c ∉ delim))), [])
      | d :: rest =>
        if d = NUL then (some (c :: b.takeWhile (fun c => decide (c ≠ NUL ∧ c ∉ delim))), d :: rest)
        else (some (c :: b.takeWhile (fun c => decide (c ≠ NUL ∧ c ∉ delim))), rest) := by
  have h1 : (c :: b).dropWhile (fun c => decide (c ∈ delim)) = c :: b := by
    simp [List.dropWhile_cons, hd]
  have h2 : (c :: b).takeWhile (fun c => decide (c ≠ NUL ∧ c ∉ delim))
      = c :: b.takeWhile (fun c => decide (c ≠ NUL ∧ c ∉ delim)) := by
    simp [List.takeWhile_cons, hd, hn]
  have h3 := drop_length_takeWhile (fun c => decide (c ≠ NUL ∧ c ∉ delim)) (c :: b)
  rw [h2] at h3
  have h4 : (c :: b).dropWhile (fun c => decide (c ≠ NUL ∧ c ∉ delim))
      = b.dropWhile (fun c => decide (c ≠ NUL ∧ c ∉ delim)) := by
    simp [List.dropWhile_cons, hd, hn]
  rw [h4] at h3
  unfold strtok
  simp only [h1, hn, if_false, h2, h3]

theorem cstring_append (t s : List Char) (h : ∀ x ∈ t, x ≠ NUL) :
    cstring (t ++ s) = t ++ cstring s := by
  induction t with
  | nil => rfl
  | cons a t ih =>
    have ha : a ≠ NUL := h a (List.mem_cons_self _ _)
    rw [List.cons_append, cstring_cons_of_ne _ _ ha, ih (fun x hx => h x (List.mem_cons_of_mem _ hx)),
      List.cons_append]

theorem dropWhile_head_false (q : Char → Bool) (l : List Char) (d : Char) (rest : List Char)
    (h : l.dropWhile q = d :: rest) : q d = false := by
  induction l with
  | nil => simp at h
  | cons a l ih =>
    by_cases ha : q a = true
    · rw [List.dropWhile_cons, if_pos ha] at h
      exact ih h
    · rw [List.dropWhile_cons, if_neg ha] at h
      injection h with h1 _
      rw [← h1]
      simpa using ha

theorem strtok_spec (b : List Char) :
    (strtok b).1 = (maximalRuns (cstring b)).head? ∧
      maximalRuns (cstring (strtok b).2) = (maximalRuns (cstring b)).tail := by
  induction b with
  | nil => simp [strtok, cstring, maximalRuns_nil]
  | cons c b ih =>
    by_cases hd : c ∈ delim
    · rw [strtok_cons_delim c b hd, cstring_cons_of_ne c b (delim_ne_NUL c hd),
        maximalRuns_cons_delim c _ (by simp [isDelim, hd])]
      exact ih
    · by_cases hn : c = NUL
      · subst hn
        rw [strtok_cons_NUL, cstring_cons_NUL, maximalRuns_nil]
        simp
      · rw [strtok_cons_char c b hd hn]
        have hsplit := List.takeWhile_append_dropWhile (fun c => decide (c ≠ NUL ∧ c ∉ delim)) b
        have htw : ∀ x ∈ c :: b.takeWhile (fun c => decide (c ≠ NUL ∧ c ∉ delim)),
            x ≠ NUL ∧ x ∉ delim := by
          intro x hx
          rcases List.mem_cons.1 hx with hx | hx
          · rw [hx]; exact ⟨hn, hd⟩
          · simpa using List.mem_takeWhile_imp hx
        generalize b.takeWhile (fun c => decide (c ≠ NUL ∧ c ∉ delim)) = tw at htw hsplit ⊢
        have hnd : ∀ x ∈ c :: tw, ¬ isDelim x = true := by
          intro x hx
          simpa [isDelim] using (htw x hx).2
        have hne : (c :: tw) ≠ [] := by simp
        cases hdw : b.dropWhile (fun c => decide (c ≠ NUL ∧ c ∉ delim)) with
        | nil =>
          rw [hdw, List.append_nil] at hsplit
          have hc : cstring (c :: tw) = c :: tw := by
            have := cstring_append (c :: tw) [] (fun x hx => (htw x hx).1)
            simpa [cstring] using this
          rw [← hsplit, hc, maximalRuns_single _ hne hnd]
          simp [cstring, maximalRuns_nil]
        | cons d rest =>
          rw [hdw] at hsplit
          have hqd := dropWhile_head_false _ b d rest hdw
          by_cases hdn : d = NUL
          · have hc : cstring (c :: b) = c :: tw := by
              rw [← hsplit, ← List.cons_append,
                cstring_append _ _ (fun x hx => (htw x hx).1), hdn, cstring_cons_NUL,
                List.append_nil]
            rw [hc, maximalRuns_single _ hne hnd]
            simp [hdn, cstring_cons_NUL, maximalRuns_nil]
          · have hdd : isDelim d = true := by
              simpa [isDelim, hdn] using hqd
            have hc : cstring (c :: b) = (c :: tw) ++ d :: cstring rest := by
              rw [← hsplit, ← List.cons_append,
                cstring_append _ _ (fun x hx => (htw x hx).1), cstring_cons_of_ne d rest hdn]
            rw [hc, maximalRuns_first _ hne hnd d hdd]
            simp [hdn]

theorem tokenLoop_spec (fuel : Nat) :
    ∀ (b : List Char) (i : Nat) (args : Args), MAX_ARGS ≤ fuel + i →
      tokenLoop fuel (strtok b).1 (strtok b).2 i args =
        (i + ((maximalRuns (cstring b)).take (MAX_ARGS - 1 - i)).length,
          writeSlots args i ((maximalRuns (cstring b)).take (MAX_ARGS - 1 - i))) := by
  induction fuel with
  | zero =>
    intro b i args h
    have h0 : MAX_ARGS - 1 - i = 0 := by omega
    simp [tokenLoop, h0, writeSlots]
  | succ fuel ih =>
    intro b i args h
    obtain ⟨h1, h2⟩ := strtok_spec b
    cases hr : maximalRuns (cstring b) with
    | nil =>
      rw [hr] at h1
      simp [tokenLoop, h1, writeSlots]
    | cons t ts =>
      rw [hr] at h1 h2
      simp only [List.head?_cons, List.tail_cons] at h1 h2
      by_cases hi : i < MAX_ARGS - 1
      · have hk : MAX_ARGS - 1 - i = (MAX_ARGS - 1 - (i + 1)) + 1 := by omega
        rw [h1]
        simp only [tokenLoop, hi, if_true]
        rw [ih (strtok b).2 (i + 1) _ (by omega), h2, hk, List.take_succ_cons]
        simp only [List.length_cons, writeSlots]
        congr 1
        omega
      · have h0 : MAX_ARGS - 1 - i = 0 := by omega
        rw [h1]
        simp [tokenLoop, hi, h0, writeSlots]

theorem writeSlots_append (ts : List Token) :
    ∀ (pre rest : Args), ts.length ≤ rest.length →
      writeSlots (pre ++ rest) pre.length ts = pre ++ ts.map some ++ rest.drop ts.length := by
  induction ts with
  | nil => intro pre rest _; simp [writeSlots]
  | cons t ts ih =>
    intro pre rest h
    cases rest with
    | nil => simp at h
    | cons r rest =>
      have hset : (pre ++ r :: rest).set pre.length (some t) = (pre ++ [some t]) ++ rest := by
        simp [List.set_append]
      have hlen : (pre ++ [some t]).length = pre.length + 1 := by simp
      simp only [writeSlots]
      rw [hset, ← hlen, ih (pre ++ [some t]) rest (by simpa using h)]
      simp

theorem cstring_cut (line : List Char) :
    cstring (line.set (strcspn line ['\n']) NUL) = cutAtNewline (cstring line) := by
  induction line with
  | nil => rfl
  | cons c l ih =>
    by_cases hn : c = NUL
    · subst hn
      simp [strcspn, cstring, cutAtNewline]
    · by_cases hl : c = '\n'
      · subst hl
        simp [strcspn, cstring, cutAtNewline, NUL]
      · have hk : strcspn (c :: l) ['\n'] = strcspn l ['\n'] + 1 := by
          simp [strcspn, List.takeWhile_cons, hn, hl]
        rw [hk, List.set_cons_succ, cstring_cons_of_ne _ _ hn, ih, cstring_cons_of_ne _ _ hn]
        simp [cutAtNewline, List.takeWhile_cons, hl]

theorem tokenize_runs (old : Args) (line : List Char) (h : old.length = MAX_ARGS) :
    tokenize old line =
        ((maximalRuns (cutAtNewline (cstring line))).take (MAX_ARGS - 1)).map some
          ++ none :: old.drop (min (maximalRuns (cutAtNewline (cstring line))).length
                (MAX_ARGS - 1) + 1)
      ∧ ∀ t ∈ (maximalRuns (cutAtNewline (cstring line))).take (MAX_ARGS - 1),
          t ≠ [] ∧ ∀ c ∈ t, c ∉ delim := by
  refine ⟨?_, fun t ht => maximalRuns_mem _ t (List.mem_of_mem_take ht)⟩
  unfold tokenize
  simp only
  rw [tokenLoop_spec MAX_ARGS _ 0 old (by omega), cstring_cut]
  generalize maximalRuns (cutAtNewline (cstring line)) = runs
  have hlen : (runs.take (MAX_ARGS - 1)).length ≤ MAX_ARGS - 1 := by
    simp [List.length_take]
  have hw := writeSlots_append (runs.take (MAX_ARGS - 1)) [] old (by rw [h]; omega)
  simp only [List.nil_append, List.length_nil] at hw
  simp only [Nat.sub_zero, Nat.zero_add]
  rw [hw]
  have hl2 : ((runs.take (MAX_ARGS - 1)).map some).length = (runs.take (MAX_ARGS - 1)).length := by
    simp
  rw [← hl2, List.set_append_right _ _ (le_refl _)]
  simp only [Nat.sub_self]
  have hd : old.drop (runs.take (MAX_ARGS - 1)).length ≠ [] := by
    intro hnil
    have := congrArg List.length hnil
    simp only [List.length_drop, List.length_nil, h] at this
    simp [MAX_ARGS] at hlen this
    omega
  rw [hl2]
  cases hdr : old.drop (runs.take (MAX_ARGS - 1)).length with
  | nil => exact absurd hdr hd
  | cons a rest =>
    have : rest = old.drop ((runs.take (MAX_ARGS - 1)).length + 1) := by
      rw [← List.drop_drop, hdr]
      rfl
    simp [this, List.length_take, Nat.min_comm]

theorem rd_append_length (pre : Args) (x : Slot) (rest : Args) :
    rd (pre ++ x :: rest) pre.length = x := by
  induction pre with
  | nil => rfl
  | cons a pre ih => simpa [rd] using ih

theorem rd_append_succ (pre : Args) (x : Slot) (ts : List Token) (stale : Args) :
    rd (pre ++ x :: (ts.map some ++ none :: stale)) (pre.length + 1) = ts.head? := by
  have h : pre ++ x :: (ts.map some ++ none :: stale)
      = (pre ++ [x]) ++ (ts.map some ++ none :: stale) := by simp
  have hl : pre.length + 1 = (pre ++ [x]).length := by simp
  rw [h, hl]
  cases ts with
  | nil => exact rd_append_length _ _ _
  | cons t ts => exact rd_append_length _ _ _

theorem set_append_length (pre : Args) (x y : Slot) (rest : Args) :
    (pre ++ x :: rest).set pre.length y = (pre ++ [y]) ++ rest := by
  simp [List.set_append]

theorem scanLoop_eq_scanList (stale : Args) (l : List Token) :
    ∀ (fuel : Nat) (pre : Args) (inF outF : Slot) (app pp : Int) (tr : List Event),
      l.length < fuel →
      scanLoop fuel pre.length ⟨pre ++ (l.map some ++ none :: stale), inF, outF, app, pp, tr⟩ =
        withStale stale (scanList l pre.length ⟨pre, inF, outF, app, pp, tr⟩) := by
  induction l with
  | nil =>
    intro fuel pre inF outF app pp tr h
    obtain ⟨fuel, rfl⟩ : ∃ k, fuel = k + 1 := ⟨fuel - 1, by simp at h; omega⟩
    simp [scanLoop, scanList, rd_append_length, withStale]
  | cons t ts ih =>
    intro fuel pre inF outF app pp tr h
    obtain ⟨fuel, rfl⟩ : ∃ k, fuel = k + 1 := ⟨fuel - 1, by simp at h; omega⟩
    have hf : ts.length < fuel := by simpa using h
    have hlen : ∀ y : Slot, (pre ++ [y]).length = pre.length + 1 := by simp
    simp only [List.map_cons, List.cons_append, scanLoop, scanList, rd_append_length,
      rd_append_succ, set_append_length]
    by_cases h1 : t = LT
    · simp only [h1, if_true]
      have := ih fuel (pre ++ [none]) ts.head? outF app pp
        (tr ++ [.load pre.length, .load (pre.length + 1), .store pre.length]) hf
      rw [hlen] at this
      exact this
    · by_cases h2 : t = GT
      · simp only [h1, h2, if_true, if_false]
        have := ih fuel (pre ++ [none]) inF ts.head? app pp
          (tr ++ [.load pre.length, .load (pre.length + 1), .store pre.length]) hf
        rw [hlen] at this
        exact this
      · by_cases h3 : t = GTGT
        · simp only [h1, h2, h3, if_true, if_false]
          have := ih fuel (pre ++ [none]) inF ts.head? 1 pp
            (tr ++ [.load pre.length, .load (pre.length + 1), .store pre.length]) hf
          rw [hlen] at this
          exact this
        · by_cases h4 : t = PIPE
          · subst h4
            simp [h1, h2, h3, withStale]
          · simp only [h1, h2, h3, h4, if_false]
            have := ih fuel (pre ++ [some t]) inF outF app pp (tr ++ [.load pre.length]) hf
            rw [hlen, List.append_assoc, List.singleton_append] at this
            exact this

theorem countLoop_vec (stale : Args) (l : List Token) :
    ∀ (fuel : Nat) (pre : Args), l.length < fuel →
      countLoop fuel (pre ++ (l.map some ++ none :: stale)) pre.length =
        (pre.length + l.length, (List.range' pre.length (l.length + 1)).map Event.load) := by
  induction l with
  | nil =>
    intro fuel pre h
    obtain ⟨fuel, rfl⟩ : ∃ k, fuel = k + 1 := ⟨fuel - 1, by simp at h; omega⟩
    simp [countLoop, rd_append_length]
  | cons t ts ih =>
    intro fuel pre h
    obtain ⟨fuel, rfl⟩ : ∃ k, fuel = k + 1 := ⟨fuel - 1, by simp at h; omega⟩
    have hf : ts.length < fuel := by simpa using h
    have := ih fuel (pre ++ [some t]) hf
    rw [List.length_append, List.length_singleton, List.append_assoc, List.singleton_append] at this
    simp only [List.map_cons, List.cons_append, countLoop, rd_append_length, this,
      List.length_cons]
    rw [List.range'_succ]
    simp only [List.map_cons]
    congr 1
    omega

theorem rd_vec_last (toks : List Token) (stale : Args) (h : toks ≠ []) :
    rd (vec toks stale) (toks.length - 1) = toks.getLast? := by
  obtain ⟨init, a, rfl⟩ : ∃ init a, toks = init ++ [a] :=
    ⟨toks.dropLast, toks.getLast h, (List.dropLast_append_getLast h).symm⟩
  have h1 : vec (init ++ [a]) stale = init.map some ++ some a :: (none :: stale) := by
    simp [vec]
  have h2 : (init ++ [a]).length - 1 = (init.map some).length := by simp
  rw [h1, h2, rd_append_length]
  simp

theorem set_vec_last (toks : List Token) (stale : Args) (h : toks ≠ []) :
    (vec toks stale).set (toks.length - 1) none = vec toks.dropLast (none :: stale) := by
  obtain ⟨init, a, rfl⟩ : ∃ init a, toks = init ++ [a] :=
    ⟨toks.dropLast, toks.getLast h, (List.dropLast_append_getLast h).symm⟩
  have h1 : vec (init ++ [a]) stale = init.map some ++ some a :: (none :: stale) := by
    simp [vec]
  have h2 : (init ++ [a]).length - 1 = (init.map some).length := by simp
  rw [h1, h2, set_append_length]
  simp [vec]

theorem args_after_check (toks : List Token) (stale : Args) (h : toks ≠ []) :
    (if toks.getLast? = some AMP then (vec toks stale).set (toks.length - 1) none
      else vec toks stale) = vec (live toks) (staleAfter toks stale) := by
  by_cases ha : toks.getLast? = some AMP
  · simp [ha, live, staleAfter, set_vec_last toks stale h]
  · simp [ha, live, staleAfter]

theorem execute_command_external (sys : Sys) (cmd : Token) (rest : List Token) (stale : Args)
    (hb : find_builtin cmd = none) :
    execute_command sys (vec (cmd :: rest) stale) =
      if sys.fork1 < 0 then
        { outcome := .returned 1, args := vec (live (cmd :: rest)) (staleAfter (cmd :: rest) stale),
          trace := prologue sys.fork1 (cmd :: rest) ++ [.perror "fork failed"],
          locals := some ⟨bgFlag (cmd :: rest), (cmd :: rest).length, none, none, 0, -1⟩ }
      else if sys.fork1 = 0 then
        { outcome := (redirect_input sys (planOf (cmd :: rest) stale)).1,
          args := (planOf (cmd :: rest) stale).args,
          trace := prologue sys.fork1 (cmd :: rest) ++ (planOf (cmd :: rest) stale).trace
            ++ (redirect_input sys (planOf (cmd :: rest) stale)).2,
          locals := some ⟨bgFlag (cmd :: rest), (cmd :: rest).length,
            (planOf (cmd :: rest) stale).inputFile, (planOf (cmd :: rest) stale).outputFile,
            (planOf (cmd :: rest) stale).append, (planOf (cmd :: rest) stale).pipe_pos⟩ }
      else if bgFlag (cmd :: rest) = 0 then
        { outcome := .returned 1, args := vec (live (cmd :: rest)) (staleAfter (cmd :: rest) stale),
          trace := prologue sys.fork1 (cmd :: rest) ++ [.waitpid sys.fork1],
          locals := some ⟨bgFlag (cmd :: rest), (cmd :: rest).length, none, none, 0, -1⟩ }
      else
        { outcome := .returned 1, args := vec (live (cmd :: rest)) (staleAfter (cmd :: rest) stale),
          trace := prologue sys.fork1 (cmd :: rest)
            ++ [.print ("Started background job with PID: " ++ toString sys.fork1 ++ "\n")],
          locals := some ⟨bgFlag (cmd :: rest), (cmd :: rest).length, none, none, 0, -1⟩ } := by
  have hne : (cmd :: rest) ≠ [] := by simp
  have h0 : rd (vec (cmd :: rest) stale) 0 = some cmd := rfl
  have hcnt := countLoop_vec stale (cmd :: rest) ((vec (cmd :: rest) stale).length + 1) []
    (by simp [vec]; omega)
  simp only [List.nil_append, List.length_nil, Nat.zero_add] at hcnt
  have hcnt2 : countLoop ((vec (cmd :: rest) stale).length + 1) (vec (cmd :: rest) stale) 0
      = ((cmd :: rest).length, (List.range' 0 ((cmd :: rest).length + 1)).map Event.load) := hcnt
  have hpos : 0 < (cmd :: rest).length := by simp
  have hscan : operator_scan (vec (live (cmd :: rest)) (staleAfter (cmd :: rest) stale))
      = planOf (cmd :: rest) stale := by
    unfold operator_scan planOf
    have := scanLoop_eq_scanList (staleAfter (cmd :: rest) stale) (live (cmd :: rest))
      ((vec (live (cmd :: rest)) (staleAfter (cmd :: rest) stale)).length + 1) [] none none 0 (-1) []
      (by simp [vec]; omega)
    simpa [vec] using this
  unfold execute_command
  simp only [h0, hb, hcnt2, rd_vec_last _ stale hne, hpos, decide_True, Bool.true_and, if_true]
  by_cases ha : (cmd :: rest).getLast? = some AMP
  · simp only [ha, decide_True, ↓reduceIte]
    rw [set_vec_last _ stale hne]
    have hl : live (cmd :: rest) = (cmd :: rest).dropLast := by simp [live, ha]
    have hs : staleAfter (cmd :: rest) stale = none :: stale := by simp [staleAfter, ha]
    rw [← hl, ← hs, hscan]
    simp [prologue, bgFlag, ha]
  · simp only [ha, decide_False, Bool.false_eq_true, ↓reduceIte]
    have hl : live (cmd :: rest) = (cmd :: rest) := by simp [live, ha]
    have hs : staleAfter (cmd :: rest) stale = stale := by simp [staleAfter, ha]
    have hscan2 := hscan
    rw [hl, hs] at hscan2
    rw [hscan2]
    simp [prologue, bgFlag, ha, hl, hs]

theorem maskOps_length (l : List Token) : (maskOps l).length = l.length := by
  induction l with
  | nil => rfl
  | cons t ts ih =>
    unfold maskOps
    split_ifs <;> simp [ih]

theorem maskOps_pipe (left right : List Token) (h : PIPE ∉ left) :
    maskOps (left ++ PIPE :: right) = maskOps left ++ none :: right.map some := by
  induction left with
  | nil => simp [maskOps, PIPE, LT, GT, GTGT]
  | cons t ts ih =>
    have ht : t ≠ PIPE := fun e => h (by simp [e])
    have hts : PIPE ∉ ts := fun e => h (List.mem_cons_of_mem _ e)
    simp only [List.cons_append, maskOps, ht, if_false]
    split_ifs <;> simp [ih hts]

theorem scanList_args (l : List Token) :
    ∀ (i : Nat) (st : Scan), (scanList l i st).args = st.args ++ (maskOps l ++ [none]) := by
  induction l with
  | nil => intro i st; simp [scanList, maskOps]
  | cons t ts ih =>
    intro i st
    by_cases h1 : t = LT
    · simp [scanList, maskOps, h1, ih]
    · by_cases h2 : t = GT
      · subst h2
        simp [scanList, maskOps, h1, ih]
      · by_cases h3 : t = GTGT
        · subst h3
          simp [scanList, maskOps, h1, h2, ih]
        · by_cases h4 : t = PIPE
          · subst h4
            simp [scanList, maskOps, h1, h2, h3]
          · simp [scanList, maskOps, h1, h2, h3, h4, ih]

theorem scanList_pipe_pos_none (l : List Token) (h : PIPE ∉ l) :
    ∀ (i : Nat) (st : Scan), (scanList l i st).pipe_pos = st.pipe_pos := by
  induction l with
  | nil => intro i st; simp [scanList]
  | cons t ts ih =>
    intro i st
    have ht : t ≠ PIPE := fun e => h (by simp [e])
    have hts : PIPE ∉ ts := fun e => h (List.mem_cons_of_mem _ e)
    simp only [scanList, ht, if_false]
    split_ifs <;> simp [ih hts]

theorem scanList_pipe_pos (left right : List Token) (h : PIPE ∉ left) :
    ∀ (i : Nat) (st : Scan),
      (scanList (left ++ PIPE :: right) i st).pipe_pos = ((i + left.length : Nat) : Int) := by
  induction left with
  | nil =>
    intro i st
    have h1 : PIPE ≠ LT := by decide
    have h2 : PIPE ≠ GT := by decide
    have h3 : PIPE ≠ GTGT := by decide
    simp [scanList, h1, h2, h3]
  | cons t ts ih =>
    intro i st
    have ht : t ≠ PIPE := fun e => h (by simp [e])
    have hts : PIPE ∉ ts := fun e => h (List.mem_cons_of_mem _ e)
    have hi : i + 1 + ts.length = i + (ts.length + 1) := by omega
    simp only [List.cons_append, scanList, ht, if_false, List.length_cons]
    split_ifs <;> simp [ih hts, hi]

theorem scanList_trace_bound (l : List Token) :
    ∀ (i : Nat) (st : Scan) (e : Event), e ∈ (scanList l i st).trace →
      e ∈ st.trace ∨ ∃ k, e.slot = some k ∧ k ≤ i + l.length := by
  induction l with
  | nil =>
    intro i st e he
    simp only [scanList, List.mem_append, List.mem_singleton] at he
    rcases he with he | he
    · exact Or.inl he
    · exact Or.inr ⟨i, by simp [he, Event.slot], by simp⟩
  | cons t ts ih =>
    intro i st e he
    have key : ∀ st' : Scan,
        (∀ e ∈ st'.trace, e ∈ st.trace ∨ ∃ k, e.slot = some k ∧ k ≤ i + (t :: ts).length) →
        e ∈ (scanList ts (i + 1) st').trace →
        e ∈ st.trace ∨ ∃ k, e.slot = some k ∧ k ≤ i + (t :: ts).length := by
      intro st' hst' hmem
      rcases ih (i + 1) st' e hmem with h | ⟨k, hk, hle⟩
      · exact hst' e h
      · exact Or.inr ⟨k, hk, by simp only [List.length_cons]; omega⟩
    have three : ∀ e ∈ st.trace ++ [Event.load i, Event.load (i + 1), Event.store i],
        e ∈ st.trace ∨ ∃ k, e.slot = some k ∧ k ≤ i + (t :: ts).length := by
      intro e he
      simp only [List.mem_append, List.mem_cons, List.mem_singleton, List.not_mem_nil,
        or_false] at he
      rcases he with he | he | he | he
      · exact Or.inl he
      · exact Or.inr ⟨i, by simp [he, Event.slot], by omega⟩
      · exact Or.inr ⟨i + 1, by simp [he, Event.slot], by simp⟩
      · exact Or.inr ⟨i, by simp [he, Event.slot], by omega⟩
    unfold scanList at he
    split_ifs at he
    · exact key _ three he
    · exact key _ three he
    · exact key _ three he
    · simp only [List.mem_append, List.mem_cons, List.mem_singleton, List.not_mem_nil,
        or_false] at he
      rcases he with he | he | he
      · exact Or.inl he
      · exact Or.inr ⟨i, by simp [he, Event.slot], by omega⟩
      · exact Or.inr ⟨i, by simp [he, Event.slot], by omega⟩
    · refine key _ ?_ he
      intro e he
      simp only [List.mem_append, List.mem_singleton] at he
      rcases he with he | he
      · exact Or.inl he
      · exact Or.inr ⟨i, by simp [he, Event.slot], by omega⟩

theorem takeWhile_isSome_append_none (a b : List Slot) :
    (a ++ none :: b).takeWhile Option.isSome = a.takeWhile Option.isSome := by
  induction a with
  | nil => simp
  | cons x a ih =>
    cases x with
    | none => simp
    | some v => simp [List.takeWhile_cons, ih]

theorem argvAt_front (slots stale : Args) (start : Nat) (h : start ≤ slots.length) :
    argvAt (slots ++ none :: stale) start
      = ((slots.drop start).takeWhile Option.isSome).filterMap id := by
  unfold argvAt
  rw [List.drop_append_of_le_length h, takeWhile_isSome_append_none]

theorem argvAt_length_le (slots stale : Args) (start : Nat) (h : start ≤ slots.length) :
    start + (argvAt (slots ++ none :: stale) start).length ≤ slots.length := by
  rw [argvAt_front slots stale start h]
  have h1 := List.length_filterMap_le id ((slots.drop start).takeWhile Option.isSome)
  have h2 := (List.takeWhile_sublist (l := slots.drop start) Option.isSome).length_le
  have h3 : (slots.drop start).length = slots.length - start := List.length_drop _ _
  omega

theorem argvAt_tokens (pre : Args) (ts : List Token) (stale : Args) :
    argvAt (pre ++ (ts.map some ++ none :: stale)) pre.length = ts := by
  unfold argvAt
  rw [List.drop_left, takeWhile_isSome_append_none]
  induction ts with
  | nil => rfl
  | cons t ts ih => simp [List.takeWhile_cons, ih]

theorem filterMap_maskOps_sublist (l : List Token) : ((maskOps l).filterMap id).Sublist l := by
  induction l with
  | nil => simp [maskOps]
  | cons t ts ih =>
    unfold maskOps
    split_ifs
    · simpa using ih.cons t
    · have : (List.map some ts).filterMap id = ts := by
        induction ts with
        | nil => rfl
        | cons a as iha => simp
      simp
    · simpa using ih

theorem argvAt_maskOps_sublist (l : List Token) (stale : Args) (start : Nat)
    (h : start ≤ l.length) : (argvAt (maskOps l ++ none :: stale) start).Sublist l := by
  rw [argvAt_front _ _ _ (by rw [maskOps_length]; exact h)]
  have h1 : (((maskOps l).drop start).takeWhile Option.isSome).Sublist (maskOps l) :=
    (List.takeWhile_sublist _).trans (List.drop_sublist _ _)
  exact (h1.filterMap id).trans (filterMap_maskOps_sublist l)

theorem execvp_slot_bound (sys : Sys) (args : Args) (start : Nat) (si so : Stream) (msg : String)
    (e : Event) (he : e ∈ (execvp sys args start si so msg).2) (k : Nat) (hk : e.slot = some k) :
    k ≤ start + (argvAt args start).length := by
  unfold execvp at he
  cases hrd : rd args start with
  | none =>
    rw [hrd] at he
    simp only [List.mem_cons, List.mem_singleton, List.not_mem_nil, or_false] at he
    rcases he with he | he
    · subst he
      simp only [Event.slot, Option.some.injEq] at hk
      omega
    · subst he
      simp [Event.slot] at hk
  | some file =>
    rw [hrd] at he
    have hl : ∀ e ∈ (List.range ((argvAt args start).length + 1)).map
        (fun k => Event.load (start + k)), ∀ k, e.slot = some k →
        k ≤ start + (argvAt args start).length := by
      intro e he k hk
      simp only [List.mem_map, List.mem_range] at he
      obtain ⟨j, hj, rfl⟩ := he
      simp only [Event.slot, Option.some.injEq] at hk
      omega
    split_ifs at he
    · simp only [List.mem_append, List.mem_singleton] at he
      rcases he with he | he
      · exact hl e he k hk
      · subst he
        simp [Event.slot] at hk
    · simp only [List.mem_append, List.mem_cons, List.mem_singleton, List.not_mem_nil,
        or_false] at he
      rcases he with he | he | he | he
      · exact hl e he k hk
      all_goals subst he; simp [Event.slot] at hk

theorem execvp_event (sys : Sys) (args : Args) (start : Nat) (si so : Stream) (msg : String)
    (f : Slot) (a : List Token) (he : Event.execvp f a ∈ (execvp sys args start si so msg).2) :
    a = argvAt args start ∨ a = [] := by
  unfold execvp at he
  cases hrd : rd args start with
  | none =>
    rw [hrd] at he
    simp at he
    exact Or.inr he.2
  | some file =>
    rw [hrd] at he
    split_ifs at he
    · simp at he
      exact Or.inl he.2
    · simp at he
      exact Or.inl he.2

theorem launch_slot_bound (sys : Sys) (sc : Scan) (si so : Stream) (slots stale : Args)
    (ha : sc.args = slots ++ none :: stale)
    (hp : sc.pipe_pos = -1 ∨ (0 ≤ sc.pipe_pos ∧ sc.pipe_pos < slots.length))
    (e : Event) (he : e ∈ (launch sys sc si so).2) (k : Nat) (hk : e.slot = some k) :
    k ≤ slots.length := by
  have h0 : ∀ si so msg, ∀ e ∈ (execvp sys sc.args 0 si so msg).2, ∀ k, e.slot = some k →
      k ≤ slots.length := by
    intro si so msg e he k hk
    have h1 := execvp_slot_bound sys sc.args 0 si so msg e he k hk
    have h2 := argvAt_length_le slots stale 0 (Nat.zero_le _)
    rw [← ha] at h2
    omega
  unfold launch at he
  split_ifs at he with h1 h2 h3 h4
  · simp only [List.mem_cons, List.mem_singleton, List.not_mem_nil, or_false] at he
    rcases he with he | he | he <;> (subst he; simp [Event.slot] at hk)
  · simp only [List.mem_cons, List.mem_singleton, List.not_mem_nil, or_false] at he
    rcases he with he | he | he | he <;> (subst he; simp [Event.slot] at hk)
  · simp only [List.mem_append, List.mem_cons, List.mem_singleton, List.not_mem_nil,
      or_false] at he
    rcases he with (he | he) | he
    · subst he; simp [Event.slot] at hk
    · subst he; simp [Event.slot] at hk
    · rcases hp with hp | ⟨hp0, hp1⟩
      · exact absurd hp h1
      · have hs : (sc.pipe_pos + 1).toNat ≤ slots.length := by omega
        have h5 := execvp_slot_bound sys sc.args _ _ _ _ e he k hk
        have h6 := argvAt_length_le slots stale _ hs
        rw [← ha] at h6
        omega
  · simp only [List.mem_append, List.mem_cons, List.mem_singleton, List.not_mem_nil,
      or_false] at he
    rcases he with (he | he | he) | he
    · subst he; simp [Event.slot] at hk
    · subst he; simp [Event.slot] at hk
    · subst he; simp [Event.slot] at hk
    · exact h0 _ _ _ e he k hk
  · exact h0 _ _ _ e he k hk

theorem redirect_input_slot_bound (sys : Sys) (sc : Scan) (slots stale : Args)
    (ha : sc.args = slots ++ none :: stale)
    (hp : sc.pipe_pos = -1 ∨ (0 ≤ sc.pipe_pos ∧ sc.pipe_pos < slots.length))
    (e : Event) (he : e ∈ (redirect_input sys sc).2) (k : Nat) (hk : e.slot = some k) :
    k ≤ slots.length := by
  have hout : ∀ si, ∀ e ∈ (redirect_output sys sc si).2, ∀ k, e.slot = some k →
      k ≤ slots.length := by
    intro si e he k hk
    unfold redirect_output at he
    split at he
    · exact launch_slot_bound sys sc _ _ slots stale ha hp e he k hk
    · split_ifs at he
      · simp only [List.mem_cons, List.mem_singleton, List.not_mem_nil, or_false] at he
        rcases he with he | he | he <;> (subst he; simp [Event.slot] at hk)
      · simp only [List.mem_cons] at he
        rcases he with he | he
        · subst he; simp [Event.slot] at hk
        · exact launch_slot_bound sys sc _ _ slots stale ha hp e he k hk
  unfold redirect_input at he
  split at he
  · exact hout _ e he k hk
  · split_ifs at he
    · simp only [List.mem_cons, List.mem_singleton, List.not_mem_nil, or_false] at he
      rcases he with he | he | he <;> (subst he; simp [Event.slot] at hk)
    · simp only [List.mem_cons] at he
      rcases he with he | he
      · subst he; simp [Event.slot] at hk
      · exact hout _ e he k hk

theorem redirect_input_execvp (sys : Sys) (sc : Scan) (f : Slot) (a : List Token)
    (he : Event.execvp f a ∈ (redirect_input sys sc).2) :
    a = argvAt sc.args 0 ∨ (sc.pipe_pos ≠ -1 ∧ a = argvAt sc.args (sc.pipe_pos + 1).toNat)
      ∨ a = [] := by
  have h0 : ∀ si so msg, Event.execvp f a ∈ (execvp sys sc.args 0 si so msg).2 →
      a = argvAt sc.args 0 ∨ (sc.pipe_pos ≠ -1 ∧ a = argvAt sc.args (sc.pipe_pos + 1).toNat)
        ∨ a = [] := by
    intro si so msg he
    rcases execvp_event sys sc.args 0 si so msg f a he with h | h
    · exact Or.inl h
    · exact Or.inr (Or.inr h)
  have hl : ∀ si so, Event.execvp f a ∈ (launch sys sc si so).2 →
      a = argvAt sc.args 0 ∨ (sc.pipe_pos ≠ -1 ∧ a = argvAt sc.args (sc.pipe_pos + 1).toNat)
        ∨ a = [] := by
    intro si so he
    unfold launch at he
    split_ifs at he with h1 h2 h3 h4
    · simp at he
    · simp at he
    · simp only [List.mem_append, List.mem_cons, List.mem_singleton, List.not_mem_nil,
        or_false] at he
      rcases he with (he | he) | he
      · cases he
      · cases he
      · rcases execvp_event sys sc.args _ _ _ _ f a he with h | h
        · exact Or.inr (Or.inl ⟨h1, h⟩)
        · exact Or.inr (Or.inr h)
    · simp only [List.mem_append, List.mem_cons, List.mem_singleton, List.not_mem_nil,
        or_false] at he
      rcases he with (he | he | he) | he
      · cases he
      · cases he
      · cases he
      · exact h0 _ _ _ he
    · exact h0 _ _ _ he
  have hout : ∀ si, Event.execvp f a ∈ (redirect_output sys sc si).2 →
      a = argvAt sc.args 0 ∨ (sc.pipe_pos ≠ -1 ∧ a = argvAt sc.args (sc.pipe_pos + 1).toNat)
        ∨ a = [] := by
    intro si he
    unfold redirect_output at he
    split at he
    · exact hl _ _ he
    · split_ifs at he
      · simp at he
      · simp only [List.mem_cons] at he
        rcases he with he | he
        · cases he
        · exact hl _ _ he
  unfold redirect_input at he
  split at he
  · exact hout _ he
  · split_ifs at he
    · simp at he
    · simp only [List.mem_cons] at he
      rcases he with he | he
      · cases he
      · exact hout _ he

theorem find_builtin_cd : find_builtin CD = some shell_cd := rfl

theorem find_builtin_exit : find_builtin EXIT = some shell_exit := rfl

theorem find_builtin_help : find_builtin HELP = some shell_help := rfl

theorem find_builtin_none (cmd : Token) (h : cmd ∉ builtin_str) : find_builtin cmd = none := by
  have h1 : cmd ≠ CD := fun e => h (by rw [e]; decide)
  have h2 : cmd ≠ EXIT := fun e => h (by rw [e]; decide)
  have h3 : cmd ≠ HELP := fun e => h (by rw [e]; decide)
  simp only [CD, EXIT, HELP] at h1 h2 h3
  simp [find_builtin, builtin_str, builtin_func, List.find?, h1, h2, h3]

theorem builtin_str_cases (cmd : Token) (h : cmd ∈ builtin_str) :
    cmd = CD ∨ cmd = EXIT ∨ cmd = HELP := by
  simpa [builtin_str, CD, EXIT, HELP] using h

theorem find_builtin_eq_none_iff (cmd : Token) : find_builtin cmd = none ↔ cmd ∉ builtin_str := by
  constructor
  · intro h hm
    rcases builtin_str_cases cmd hm with e | e | e
    · rw [e, find_builtin_cd] at h; cases h
    · rw [e, find_builtin_exit] at h; cases h
    · rw [e, find_builtin_help] at h; cases h
  · exact find_builtin_none cmd

theorem live_length_le (toks : List Token) : (live toks).length ≤ toks.length := by
  unfold live
  split_ifs
  · simp
  · exact le_refl _

theorem planOf_args (toks : List Token) (stale : Args) :
    (planOf toks stale).args = maskOps (live toks) ++ none :: staleAfter toks stale := by
  simp [planOf, withStale, scanList_args]

theorem planOf_pipe_pos_none (toks : List Token) (stale : Args) (h : PIPE ∉ live toks) :
    (planOf toks stale).pipe_pos = -1 := by
  simp [planOf, withStale, scanList_pipe_pos_none _ h]

theorem planOf_pipe_pos (toks : List Token) (stale : Args) (left right : List Token)
    (hl : live toks = left ++ PIPE :: right) (h : PIPE ∉ left) :
    (planOf toks stale).pipe_pos = (left.length : Int) := by
  simp [planOf, withStale, hl, scanList_pipe_pos _ _ h]

theorem planOf_pipe_pos_bound (toks : List Token) (stale : Args) :
    (planOf toks stale).pipe_pos = -1 ∨
      (0 ≤ (planOf toks stale).pipe_pos ∧
        (planOf toks stale).pipe_pos < ((maskOps (live toks)).length : Int)) := by
  by_cases h : PIPE ∈ live toks
  · obtain ⟨left, right, hl, hn⟩ := List.eq_append_cons_of_mem h
    right
    rw [planOf_pipe_pos toks stale left right hl hn, maskOps_length, hl]
    simp
  · exact Or.inl (planOf_pipe_pos_none toks stale h)

theorem planOf_trace_bound (toks : List Token) (stale : Args) (e : Event)
    (he : e ∈ (planOf toks stale).trace) (k : Nat) (hk : e.slot = some k) :
    k ≤ (live toks).length := by
  have := scanList_trace_bound (live toks) 0 ⟨[], none, none, 0, -1, []⟩ e
    (by simpa [planOf, withStale] using he)
  rcases this with h | ⟨j, hj, hle⟩
  · simp at h
  · rw [hk] at hj
    cases hj
    omega

theorem prologue_slot_bound (pid : Int) (toks : List Token) (e : Event)
    (he : e ∈ prologue pid toks) (k : Nat) (hk : e.slot = some k) : k ≤ toks.length := by
  unfold prologue at he
  simp only [List.mem_append, List.mem_cons, List.mem_singleton, List.not_mem_nil, or_false,
    List.mem_map, List.mem_range'_1] at he
  rcases he with ((he | he) | he) | he
  · rcases he with he | he
    · subst he
      simp only [Event.slot, Option.some.injEq] at hk
      omega
    · subst he
      simp [Event.slot] at hk
  · obtain ⟨j, hj, rfl⟩ := he
    simp only [Event.slot, Option.some.injEq] at hk
    omega
  · subst he
    simp only [Event.slot, Option.some.injEq] at hk
    omega
  · split_ifs at he
    · simp only [List.mem_singleton] at he
      subst he
      simp only [Event.slot, Option.some.injEq] at hk
      omega
    · simp at he

theorem execute_command_builtin (sys : Sys) (args : Args) (cmd : Token)
    (f : Sys → Args → Int × List Event) (h0 : rd args 0 = some cmd)
    (hf : find_builtin cmd = some f) :
    execute_command sys args =
      { outcome := .returned (f sys args).1, args := args, trace := .load 0 :: (f sys args).2,
        locals := none } := by
  unfold execute_command
  simp only [h0, hf]

theorem execute_command_empty (sys : Sys) (args : Args) (h0 : rd args 0 = none) :
    execute_command sys args =
      { outcome := .returned 1, args := args, trace := [.load 0], locals := none } := by
  unfold execute_command
  simp only [h0]

theorem shell_cd_slot (sys : Sys) (args : Args) (e : Event) (he : e ∈ (shell_cd sys args).2)
    (k : Nat) (hk : e.slot = some k) : k = 1 := by
  unfold shell_cd at he
  split at he
  · simp only [List.mem_cons, List.mem_singleton, List.not_mem_nil, or_false] at he
    rcases he with he | he
    · subst he
      simpa [Event.slot] using hk.symm
    · subst he; simp [Event.slot] at hk
  · split_ifs at he
    · simp only [List.mem_cons, List.mem_singleton, List.not_mem_nil, or_false] at he
      rcases he with he | he | he
      · subst he
        simpa [Event.slot] using hk.symm
      · subst he; simp [Event.slot] at hk
      · subst he; simp [Event.slot] at hk
    · simp only [List.mem_cons, List.mem_singleton, List.not_mem_nil, or_false] at he
      rcases he with he | he
      · subst he
        simpa [Event.slot] using hk.symm
      · subst he; simp [Event.slot] at hk

theorem shell_help_slot (sys : Sys) (args : Args) (e : Event) (he : e ∈ (shell_help sys args).2) :
    e.slot = none := by
  simp only [shell_help, List.mem_append, List.mem_cons, List.mem_map, List.mem_singleton,
    List.not_mem_nil, or_false] at he
  rcases he with (he | he) | he
  · rcases he with he | he | he <;> (subst he; rfl)
  · obtain ⟨x, _, rfl⟩ := he
    rfl
  · rcases he with he | he <;> (subst he; rfl)

theorem execute_command_slot_bound (sys : Sys) (toks : List Token) (stale : Args) (e : Event)
    (he : e ∈ (execute_command sys (vec toks stale)).trace) (k : Nat) (hk : e.slot = some k) :
    k ≤ toks.length := by
  cases toks with
  | nil =>
    rw [execute_command_empty sys (vec [] stale) rfl] at he
    simp only [List.mem_singleton] at he
    subst he
    simp only [Event.slot, Option.some.injEq] at hk
    omega
  | cons cmd rest =>
    by_cases hb : cmd ∈ builtin_str
    · have h0 : rd (vec (cmd :: rest) stale) 0 = some cmd := rfl
      have hlen : 1 ≤ (cmd :: rest).length := by simp
      rcases builtin_str_cases cmd hb with hc | hc | hc
      · rw [execute_command_builtin sys _ cmd shell_cd h0 (by rw [hc]; rfl)] at he
        simp only [List.mem_cons] at he
        rcases he with he | he
        · subst he
          simp only [Event.slot, Option.some.injEq] at hk
          omega
        · have := shell_cd_slot sys _ e he k hk
          omega
      · rw [execute_command_builtin sys _ cmd shell_exit h0 (by rw [hc]; rfl)] at he
        simp only [shell_exit, List.mem_singleton] at he
        subst he
        simp only [Event.slot, Option.some.injEq] at hk
        omega
      · rw [execute_command_builtin sys _ cmd shell_help h0 (by rw [hc]; rfl)] at he
        simp only [List.mem_cons] at he
        rcases he with he | he
        · subst he
          simp only [Event.slot, Option.some.injEq] at hk
          omega
        · rw [shell_help_slot sys _ e he] at hk
          cases hk
    · rw [execute_command_external sys cmd rest stale (find_builtin_none cmd hb)] at he
      have hpro := prologue_slot_bound sys.fork1 (cmd :: rest)
      split_ifs at he
      · simp only [List.mem_append, List.mem_singleton] at he
        rcases he with he | he
        · exact hpro e he k hk
        · subst he; simp [Event.slot] at hk
      · simp only [List.mem_append] at he
        rcases he with (he | he) | he
        · exact hpro e he k hk
        · exact (planOf_trace_bound _ stale e he k hk).trans (live_length_le _)
        · have := redirect_input_slot_bound sys (planOf (cmd :: rest) stale)
            (maskOps (live (cmd :: rest))) (staleAfter (cmd :: rest) stale)
            (planOf_args _ _) (planOf_pipe_pos_bound _ _) e he k hk
          rw [maskOps_length] at this
          exact this.trans (live_length_le _)
      · simp only [List.mem_append, List.mem_singleton] at he
        rcases he with he | he
        · exact hpro e he k hk
        · subst he; simp [Event.slot] at hk
      · simp only [List.mem_append, List.mem_singleton] at he
        rcases he with he | he
        · exact hpro e he k hk
        · subst he; simp [Event.slot] at hk

theorem sentinelIndex_vec (toks : List Token) (stale : Args) :
    sentinelIndex (vec toks stale) = toks.length := by
  unfold sentinelIndex vec
  rw [takeWhile_isSome_append_none]
  induction toks with
  | nil => rfl
  | cons t ts ih => simp [List.takeWhile_cons, ih]

theorem tokenize_vec (old : Args) (line : List Char) (h : old.length = MAX_ARGS) :
    tokenize old line =
      vec ((maximalRuns (cutAtNewline (cstring line))).take (MAX_ARGS - 1))
        (old.drop (min (maximalRuns (cutAtNewline (cstring line))).length (MAX_ARGS - 1) + 1)) :=
  (tokenize_runs old line h).1

theorem maximalRuns_all_delim (s : List Char) (h : ∀ c ∈ s, c ∈ delim) : maximalRuns s = [] := by
  induction s with
  | nil => exact maximalRuns_nil
  | cons c s ih =>
    rw [maximalRuns_cons_delim c s (by simp [isDelim, h c (List.mem_cons_self _ _)])]
    exact ih (fun x hx => h x (List.mem_cons_of_mem _ hx))

theorem prologue_waits (pid : Int) (toks : List Token) : waits (prologue pid toks) = [] := by
  unfold waits prologue
  rw [List.filterMap_eq_nil_iff]
  intro e he
  simp only [List.mem_append, List.mem_cons, List.mem_singleton, List.not_mem_nil, or_false,
    List.mem_map] at he
  rcases he with (((he | he) | he) | he) | he
  · subst he; rfl
  · subst he; rfl
  · obtain ⟨j, _, rfl⟩ := he
    rfl
  · subst he; rfl
  · split_ifs at he
    · simp only [List.mem_singleton] at he
      subst he; rfl
    · simp at he

theorem prologue_not_execvp (pid : Int) (toks : List Token) (f : Slot) (a : List Token) :
    Event.execvp f a ∉ prologue pid toks := by
  unfold prologue
  simp only [List.mem_append, List.mem_cons, List.mem_singleton, List.not_mem_nil, or_false,
    List.mem_map, not_or]
  refine ⟨⟨⟨⟨by simp, by simp⟩, ?_⟩, by simp⟩, ?_⟩
  · rintro ⟨j, _, hj⟩
    cases hj
  · split_ifs <;> simp

theorem planOf_not_execvp (toks : List Token) (stale : Args) (f : Slot) (a : List Token) :
    Event.execvp f a ∉ (planOf toks stale).trace := by
  intro he
  have := scanList_trace_bound (live toks) 0 ⟨[], none, none, 0, -1, []⟩ _
    (by simpa [planOf, withStale] using he)
  rcases this with h | ⟨j, hj, _⟩
  · simp at h
  · simp [Event.slot] at hj

theorem child_execvp_sublist (sys : Sys) (cmd : Token) (rest : List Token) (stale : Args)
    (hb : find_builtin cmd = none) (hc : sys.fork1 = 0) (f : Slot) (a : List Token)
    (he : Event.execvp f a ∈ (execute_command sys (vec (cmd :: rest) stale)).trace) :
    a.Sublist (live (cmd :: rest)) := by
  rw [execute_command_external sys cmd rest stale hb] at he
  have hlt : ¬ sys.fork1 < 0 := by omega
  rw [if_neg hlt, if_pos hc] at he
  simp only [List.mem_append] at he
  rcases he with (he | he) | he
  · exact absurd he (prologue_not_execvp _ _ f a)
  · exact absurd he (planOf_not_execvp _ _ f a)
  · have hargs := planOf_args (cmd :: rest) stale
    rcases redirect_input_execvp sys _ f a he with h | ⟨hpp, h⟩ | h
    · rw [h, hargs]
      exact argvAt_maskOps_sublist _ _ 0 (Nat.zero_le _)
    · rw [h, hargs]
      apply argvAt_maskOps_sublist
      rcases planOf_pipe_pos_bound (cmd :: rest) stale with hb | ⟨h1, h2⟩
      · exact absurd hb hpp
      · rw [maskOps_length] at h2
        omega
    · rw [h]
      exact List.nil_sublist _

theorem redirect_input_ok (sys : Sys) (sc : Scan) (hin : 0 ≤ sys.open_in)
    (hout : 0 ≤ sys.open_out) :
    (redirect_input sys sc).1 = (launch sys sc (stdinOf sc) (stdoutOf sc)).1 ∧
      ∀ e ∈ (launch sys sc (stdinOf sc) (stdoutOf sc)).2, e ∈ (redirect_input sys sc).2 := by
  have h1 : ¬ sys.open_in < 0 := by omega
  have h2 : ¬ sys.open_out < 0 := by omega
  have hout : ∀ si, (redirect_output sys sc si).1 = (launch sys sc si (stdoutOf sc)).1 ∧
      ∀ e ∈ (launch sys sc si (stdoutOf sc)).2, e ∈ (redirect_output sys sc si).2 := by
    intro si
    unfold redirect_output stdoutOf
    cases sc.outputFile with
    | none => exact ⟨rfl, fun e he => he⟩
    | some f =>
      simp only [h2, if_false]
      exact ⟨by trivial, fun e he => List.mem_cons_of_mem _ he⟩
  unfold redirect_input stdinOf
  cases sc.inputFile with
  | none => exact hout _
  | some f =>
    simp only [h1, if_false]
    exact ⟨(hout _).1, fun e he => List.mem_cons_of_mem _ ((hout _).2 e he)⟩

theorem argvAt_of_rd_none (args : Args) (start : Nat) (h : rd args start = none) :
    argvAt args start = [] := by
  unfold argvAt
  cases hd : args.drop start with
  | nil => rfl
  | cons x xs =>
    have hx : rd args start = x := by
      have h1 : args[start]? = some x := by
        rw [← List.head?_drop, hd]
        rfl
      simp [rd, List.getD_eq_getElem?_getD, h1]
    rw [h] at hx
    subst hx
    rfl

theorem execvp_call (sys : Sys) (args : Args) (start : Nat) (si so : Stream) (msg : String) :
    Event.execvp (rd args start) (argvAt args start) ∈ (execvp sys args start si so msg).2 := by
  unfold execvp
  cases hrd : rd args start with
  | none => simp [argvAt_of_rd_none args start hrd]
  | some file =>
    simp only
    split_ifs <;> simp

theorem execvp_ok (sys : Sys) (args : Args) (start : Nat) (si so : Stream) (msg : String)
    (file : Token) (hrd : rd args start = some file) (hex : sys.exec_ok = true) :
    (execvp sys args start si so msg).1 = .replaced file (argvAt args start) si so := by
  unfold execvp
  simp [hrd, hex]

theorem launch_right (sys : Sys) (sc : Scan) (si so : Stream) (hpp : sc.pipe_pos ≠ -1)
    (hpipe : 0 ≤ sys.pipe) (hf2 : sys.fork2 = 0) :
    launch sys sc si so =
      ((execvp sys sc.args (sc.pipe_pos + 1).toNat .pipeRead so
          "execvp for piped command failed").1,
        [.pipe sys.pipe, .fork sys.fork2] ++
          (execvp sys sc.args (sc.pipe_pos + 1).toNat .pipeRead so
            "execvp for piped command failed").2) := by
  have h1 : ¬ sys.pipe < 0 := by omega
  have h2 : ¬ sys.fork2 < 0 := by omega
  unfold launch
  rw [if_pos hpp, if_neg h1, if_neg h2, if_pos hf2]

theorem launch_left (sys : Sys) (sc : Scan) (si so : Stream) (hpp : sc.pipe_pos ≠ -1)
    (hpipe : 0 ≤ sys.pipe) (hf2 : 0 < sys.fork2) :
    (launch sys sc si so).1 =
      (execvp sys sc.args 0 si .pipeWrite "execvp for first command failed").1 := by
  have h1 : ¬ sys.pipe < 0 := by omega
  have h2 : ¬ sys.fork2 < 0 := by omega
  have h3 : ¬ sys.fork2 = 0 := by omega
  unfold launch
  rw [if_pos hpp, if_neg h1, if_neg h2, if_neg h3]

theorem launch_simple (sys : Sys) (sc : Scan) (si so : Stream) (hpp : sc.pipe_pos = -1) :
    launch sys sc si so = execvp sys sc.args 0 si so "execvp failed" := by
  unfold launch
  simp [hpp]

theorem mem_live (toks : List Token) (t : Token) (h : t ∈ toks) (hne : t ≠ AMP) :
    t ∈ live toks := by
  unfold live
  split_ifs with ha
  · have hnil : toks ≠ [] := List.ne_nil_of_mem h
    have hsplit := List.dropLast_append_getLast hnil
    have hlast : toks.getLast hnil = AMP := by
      rw [List.getLast?_eq_getLast _ hnil] at ha
      exact Option.some.inj ha
    rw [← hsplit, List.mem_append, List.mem_singleton, hlast] at h
    rcases h with h | h
    · exact h
    · exact absurd h hne
  · exact h

theorem live_cons (toks : List Token) (cmd : Token) (l : List Token)
    (h : live toks = cmd :: l) : ∃ rest, toks = cmd :: rest := by
  unfold live at h
  split_ifs at h
  · cases toks with
    | nil => simp at h
    | cons x xs =>
      cases xs with
      | nil => simp at h
      | cons y ys =>
        simp only [List.dropLast_cons₂, List.cons.injEq] at h
        exact ⟨y :: ys, by rw [h.1]⟩
  · exact ⟨l, h⟩

theorem planOf_rd_zero (toks : List Token) (stale : Args) (cmd : Token) (l : List Token)
    (h : live toks = cmd :: l) (hcmd : cmd ∉ [LT, GT, GTGT, PIPE]) :
    rd (planOf toks stale).args 0 = some cmd := by
  simp only [List.mem_cons, List.mem_singleton, List.not_mem_nil, or_false, not_or] at hcmd
  rw [planOf_args, h]
  simp [maskOps, hcmd.1, hcmd.2.1, hcmd.2.2.1, hcmd.2.2.2, rd]

theorem planOf_right_args (toks : List Token) (stale : Args) (left right : List Token)
    (hl : live toks = left ++ PIPE :: right) (hn : PIPE ∉ left) :
    rd (planOf toks stale).args (left.length + 1) = right.head? ∧
      argvAt (planOf toks stale).args (left.length + 1) = right := by
  rw [planOf_args, hl, maskOps_pipe left right hn, List.append_assoc, List.cons_append,
    ← maskOps_length left]
  refine ⟨rd_append_succ _ _ _ _, ?_⟩
  have h1 : maskOps left ++ none :: (right.map some ++ none :: staleAfter toks stale)
      = (maskOps left ++ [none]) ++ (right.map some ++ none :: staleAfter toks stale) := by
    simp
  have h2 : (maskOps left).length + 1 = (maskOps left ++ [none]).length := by simp
  rw [h1, h2]
  exact argvAt_tokens _ _ _

theorem pipeIndex_first (left right : List Token) (hn : PIPE ∉ left) :
    pipeIndex (left ++ PIPE :: right) = left.length := by
  induction left with
  | nil => simp [pipeIndex]
  | cons t ts ih =>
    have ht : t ≠ PIPE := fun e => hn (by simp [e])
    have hts : PIPE ∉ ts := fun e => hn (List.mem_cons_of_mem _ e)
    have := ih hts
    unfold pipeIndex at this ⊢
    rw [List.cons_append, List.takeWhile_cons]
    simp only [ne_eq, ht, not_false_eq_true, decide_True, if_true, List.length_cons, this]

theorem head?_append_pipe (ts right right' : List Token) :
    (ts ++ PIPE :: right).head? = (ts ++ PIPE :: right').head? := by
  cases ts <;> rfl

theorem scanList_plan_indep (l : List Token) (right right' : List Token) (hn : PIPE ∉ l) :
    ∀ (i : Nat) (st st' : Scan), st.plan = st'.plan →
      (scanList (l ++ PIPE :: right) i st).plan = (scanList (l ++ PIPE :: right') i st').plan := by
  induction l with
  | nil =>
    intro i st st' h
    have h1 : PIPE ≠ LT := by decide
    have h2 : PIPE ≠ GT := by decide
    have h3 : PIPE ≠ GTGT := by decide
    simp only [Scan.plan, Prod.mk.injEq] at h
    simp [scanList, h1, h2, h3, Scan.plan, h]
  | cons t ts ih =>
    intro i st st' h
    have ht : t ≠ PIPE := fun e => hn (by simp [e])
    have hts : PIPE ∉ ts := fun e => hn (List.mem_cons_of_mem _ e)
    simp only [Scan.plan, Prod.mk.injEq] at h
    simp only [List.cons_append, scanList, ht, if_false]
    split_ifs
    · apply ih hts
      simp [Scan.plan, h, head?_append_pipe ts right right']
    · apply ih hts
      simp [Scan.plan, h, head?_append_pipe ts right right']
    · apply ih hts
      simp [Scan.plan, h, head?_append_pipe ts right right']
    · apply ih hts
      simp [Scan.plan, h]

theorem scanList_inputFile_keep (l : List Token) (right : List Token) (hn : LT ∉ l) :
    ∀ (i : Nat) (st : Scan),
      (scanList (l ++ PIPE :: right) i st).inputFile = st.inputFile := by
  induction l with
  | nil =>
    intro i st
    have h1 : PIPE ≠ LT := by decide
    have h2 : PIPE ≠ GT := by decide
    have h3 : PIPE ≠ GTGT := by decide
    simp [scanList, h1, h2, h3]
  | cons t ts ih =>
    intro i st
    have ht : t ≠ LT := fun e => hn (by simp [e])
    have hts : LT ∉ ts := fun e => hn (List.mem_cons_of_mem _ e)
    simp only [List.cons_append, scanList, ht, if_false]
    split_ifs <;> simp [ih hts]

theorem scanList_inputFile_last (a : List Token) (f : Token) (b right : List Token)
    (ha : PIPE ∉ a) (hb : LT ∉ f :: b) :
    ∀ (i : Nat) (st : Scan),
      (scanList (a ++ LT :: ((f :: b) ++ PIPE :: right)) i st).inputFile = some f := by
  induction a with
  | nil =>
    intro i st
    rw [List.nil_append, scanList, if_pos rfl, scanList_inputFile_keep (f :: b) right hb]
    rfl
  | cons t ts ih =>
    intro i st
    have ht : t ≠ PIPE := fun e => ha (by simp [e])
    have hts : PIPE ∉ ts := fun e => ha (List.mem_cons_of_mem _ e)
    simp only [List.cons_append, scanList, ht, if_false]
    split_ifs <;> exact ih hts _ _

theorem scanList_dangling_in (l : List Token) (hn : PIPE ∉ l) :
    ∀ (i : Nat) (st : Scan), (scanList (l ++ [LT]) i st).inputFile = none := by
  induction l with
  | nil => intro i st; simp [scanList]
  | cons t ts ih =>
    intro i st
    have ht : t ≠ PIPE := fun e => hn (by simp [e])
    have hts : PIPE ∉ ts := fun e => hn (List.mem_cons_of_mem _ e)
    simp only [List.cons_append, scanList, ht, if_false]
    split_ifs <;> exact ih hts _ _

theorem scanList_dangling_out (l : List Token) (op : Token) (hop : op = GT ∨ op = GTGT)
    (hn : PIPE ∉ l) :
    ∀ (i : Nat) (st : Scan), (scanList (l ++ [op]) i st).outputFile = none := by
  induction l with
  | nil =>
    intro i st
    rcases hop with h | h
    · subst h
      have h1 : GT ≠ LT := by decide
      simp [scanList, h1]
    · subst h
      have h1 : GTGT ≠ LT := by decide
      have h2 : GTGT ≠ GT := by decide
      simp [scanList, h1, h2]
  | cons t ts ih =>
    intro i st
    have ht : t ≠ PIPE := fun e => hn (by simp [e])
    have hts : PIPE ∉ ts := fun e => hn (List.mem_cons_of_mem _ e)
    simp only [List.cons_append, scanList, ht, if_false]
    split_ifs <;> exact ih hts _ _

theorem rd_last_masked (l : List Token) (op : Token) (stale : Args)
    (hop : op = LT ∨ op = GT ∨ op = GTGT) (hn : PIPE ∉ l) :
    rd (maskOps (l ++ [op]) ++ none :: stale) l.length = none := by
  have hm : maskOps (l ++ [op]) = maskOps l ++ [none] := by
    induction l with
    | nil => simp [maskOps, hop]
    | cons t ts ih =>
      have ht : t ≠ PIPE := fun e => hn (by simp [e])
      have hts : PIPE ∉ ts := fun e => hn (List.mem_cons_of_mem _ e)
      simp only [List.cons_append, maskOps, ht, if_false]
      split_ifs <;> simp [ih hts]
  rw [hm, List.append_assoc, ← maskOps_length l]
  exact rd_append_length _ _ _

theorem planOf_plan (toks : List Token) (stale : Args) :
    (planOf toks stale).plan = (scanList (live toks) 0 ⟨[], none, none, 0, -1, []⟩).plan := rfl

theorem child_locals_plan (sys : Sys) (cmd : Token) (rest : List Token) (stale : Args)
    (hb : find_builtin cmd = none) (hc : sys.fork1 = 0) :
    (execute_command sys (vec (cmd :: rest) stale)).locals.map Locals.plan
      = some (planOf (cmd :: rest) stale).plan := by
  have hlt : ¬ sys.fork1 < 0 := by omega
  rw [execute_command_external sys cmd rest stale hb, if_neg hlt, if_pos hc]
  rfl

theorem child_outcome (sys : Sys) (cmd : Token) (rest : List Token) (stale : Args)
    (hb : find_builtin cmd = none) (hc : sys.fork1 = 0) :
    (execute_command sys (vec (cmd :: rest) stale)).outcome
      = (redirect_input sys (planOf (cmd :: rest) stale)).1 := by
  have hlt : ¬ sys.fork1 < 0 := by omega
  rw [execute_command_external sys cmd rest stale hb, if_neg hlt, if_pos hc]

/-! ## The claims -/

/-- C1.  For every command buffer, the tokenizer of `shell_loop` leaves in
`args` the first `min n 63` of the `n` maximal runs of non-delimiter characters
of the line (the C string in the buffer) cut at its first newline, in order,
followed by the `NULL` sentinel, the slots behind the sentinel being left as
they were; every token is non-empty and free of delimiters. -/
theorem tokenize_spec (old : Args) (line : List Char) (h : old.length = MAX_ARGS) :
    tokenize old line =
        ((maximalRuns (cutAtNewline (cstring line))).take (MAX_ARGS - 1)).map some
          ++ none :: old.drop (min (maximalRuns (cutAtNewline (cstring line))).length
                (MAX_ARGS - 1) + 1)
      ∧ ∀ t ∈ (maximalRuns (cutAtNewline (cstring line))).take (MAX_ARGS - 1),
          t ≠ [] ∧ ∀ c ∈ t, c ∉ delim :=
  tokenize_runs old line h

theorem tokenize_spec_witness :
    (List.replicate 64 (none : Slot)).length = MAX_ARGS ∧
      tokenize (List.replicate 64 none) [' ', 'l', 's', ' ', ' ', '-', 'l', '\n'] =
        ((maximalRuns (cutAtNewline (cstring [' ', 'l', 's', ' ', ' ', '-', 'l', '\n']))).take
            (MAX_ARGS - 1)).map some
          ++ none :: (List.replicate 64 (none : Slot)).drop
              (min (maximalRuns
                (cutAtNewline (cstring [' ', 'l', 's', ' ', ' ', '-', 'l', '\n']))).length
                (MAX_ARGS - 1) + 1) :=
  ⟨by decide,
    (tokenize_spec (List.replicate 64 none) [' ', 'l', 's', ' ', ' ', '-', 'l', '\n']
      (by decide)).1⟩

/-- C2 (as stated, refuted).  On `cat < in | wc > out` the right-hand process
replaces its image with `wc` on the arguments `wc`, `>`, `out`, its standard
output left as inherited: the operator behind the `|` redirects nothing and
stays in the argument list. -/
theorem pipe_right_redirection_counterexample :
    (execute_command ⟨0, 0, 3, 4, 0, 0, true⟩
        (vec [['c', 'a', 't'], LT, ['i', 'n'], PIPE, ['w', 'c'], GT, ['o', 'u', 't']] [])).outcome
      = .replaced ['w', 'c'] [['w', 'c'], GT, ['o', 'u', 't']] .pipeRead .inherited := by
  decide

/-- C2 (amended).  For an external command with a `|`, in the child and with
the opens, `pipe` and `execvp` succeeding: the plan (input file, output file,
append flag, split point) is decided by the tokens up to the first `|` and is
the same whatever follows it; the right-hand program gets the read end of the
pipe as standard input and the right segment, verbatim, as its argument list;
and the left-hand program gets as standard input the file named behind the
last `<` of the left segment, or the inherited stream when the segment has no
`<`. -/
theorem pipe_redirection_left_only (sys : Sys) (cmd : Token) (left right : List Token)
    (toks : List Token) (stale : Args) (hl : live toks = (cmd :: left) ++ PIPE :: right)
    (hn : PIPE ∉ left) (hb : find_builtin cmd = none) (hcmd : cmd ∉ [LT, GT, GTGT, PIPE])
    (hc : sys.fork1 = 0) (hin : 0 ≤ sys.open_in) (hout : 0 ≤ sys.open_out)
    (hpipe : 0 ≤ sys.pipe) (hex : sys.exec_ok = true) :
    (∀ (toks' : List Token) (stale' : Args) (right' : List Token),
        live toks' = (cmd :: left) ++ PIPE :: right' →
        (execute_command sys (vec toks' stale')).locals.map Locals.plan
          = (execute_command sys (vec toks stale)).locals.map Locals.plan) ∧
      (sys.fork2 = 0 → ∀ r rs, right = r :: rs →
        ∃ so, (execute_command sys (vec toks stale)).outcome
          = .replaced r (r :: rs) .pipeRead so) ∧
      (0 < sys.fork2 →
        (∀ a f b, cmd :: left = a ++ LT :: f :: b → LT ∉ f :: b →
          ∃ argv so, (execute_command sys (vec toks stale)).outcome
            = .replaced cmd argv (.inFile f) so) ∧
        (LT ∉ cmd :: left →
          ∃ argv so, (execute_command sys (vec toks stale)).outcome
            = .replaced cmd argv .inherited so)) := by
  obtain ⟨rest, rfl⟩ := live_cons toks cmd _ hl
  have hnp : PIPE ∉ cmd :: left := by
    simp only [List.mem_cons, List.mem_singleton, List.not_mem_nil, or_false, not_or] at hcmd
    intro h
    rcases List.mem_cons.1 h with h | h
    · exact hcmd.2.2.2 h.symm
    · exact hn h
  have hpp := planOf_pipe_pos _ stale (cmd :: left) right hl hnp
  have hpp1 : (planOf (cmd :: rest) stale).pipe_pos ≠ -1 := by rw [hpp]; omega
  obtain ⟨hri, _⟩ := redirect_input_ok sys (planOf (cmd :: rest) stale) hin hout
  have hout1 := child_outcome sys cmd rest stale hb hc
  refine ⟨?_, ?_, ?_⟩
  · intro toks' stale' right' hl'
    obtain ⟨rest', rfl⟩ := live_cons toks' cmd _ hl'
    rw [child_locals_plan sys cmd rest' stale' hb hc, child_locals_plan sys cmd rest stale hb hc,
      planOf_plan, planOf_plan, hl, hl']
    exact congrArg some (scanList_plan_indep (cmd :: left) right' right hnp 0 _ _ rfl)
  · intro hf2 r rs hr
    have hstart : ((planOf (cmd :: rest) stale).pipe_pos + 1).toNat
        = (cmd :: left).length + 1 := by
      rw [hpp]; omega
    obtain ⟨hrd, hargv⟩ := planOf_right_args _ stale (cmd :: left) right hl hnp
    refine ⟨stdoutOf (planOf (cmd :: rest) stale), ?_⟩
    rw [hout1, hri, launch_right sys _ _ _ hpp1 hpipe hf2, hstart,
      execvp_ok sys _ _ _ _ _ r (by rw [hrd, hr]; rfl) hex, hargv, hr]
  · intro hf2
    have hleft : (execute_command sys (vec (cmd :: rest) stale)).outcome
        = .replaced cmd (argvAt (planOf (cmd :: rest) stale).args 0)
            (stdinOf (planOf (cmd :: rest) stale)) .pipeWrite := by
      rw [hout1, hri, launch_left sys _ _ _ hpp1 hpipe hf2,
        execvp_ok sys _ _ _ _ _ cmd (planOf_rd_zero _ stale cmd _ hl hcmd) hex]
    constructor
    · intro a f b hsplit hlt
      have hpa : PIPE ∉ a := by
        intro h
        apply hnp
        rw [hsplit]
        exact List.mem_append_left _ h
      have hinp : (planOf (cmd :: rest) stale).inputFile = some f := by
        simp only [planOf, withStale, hl, hsplit]
        have := scanList_inputFile_last a f b right hpa hlt 0 ⟨[], none, none, 0, -1, []⟩
        simpa using this
      exact ⟨_, _, by rw [hleft, stdinOf, hinp]⟩
    · intro hlt
      have hinp : (planOf (cmd :: rest) stale).inputFile = none := by
        simp only [planOf, withStale, hl]
        exact scanList_inputFile_keep (cmd :: left) right hlt 0 _
      exact ⟨_, _, by rw [hleft, stdinOf, hinp]⟩

theorem pipe_redirection_left_only_witness :
    live [['c', 'a', 't'], LT, ['i', 'n'], PIPE, ['w', 'c'], GT, ['o', 'u', 't']]
        = (['c', 'a', 't'] :: [LT, ['i', 'n']]) ++ PIPE :: [['w', 'c'], GT, ['o', 'u', 't']] ∧
      find_builtin ['c', 'a', 't'] = none ∧
      (execute_command ⟨0, 0, 3, 4, 0, 0, true⟩
          (vec [['c', 'a', 't'], LT, ['i', 'n'], PIPE, ['w', 'c']] [])).locals.map Locals.plan
        = (execute_command ⟨0, 0, 3, 4, 0, 0, true⟩
            (vec [['c', 'a', 't'], LT, ['i', 'n'], PIPE, ['w', 'c'], GT, ['o', 'u', 't']]
              [])).locals.map Locals.plan :=
  ⟨by decide, rfl,
    (pipe_redirection_left_only ⟨0, 0, 3, 4, 0, 0, true⟩ ['c', 'a', 't'] [LT, ['i', 'n']]
      [['w', 'c'], GT, ['o', 'u', 't']]
      [['c', 'a', 't'], LT, ['i', 'n'], PIPE, ['w', 'c'], GT, ['o', 'u', 't']] []
      (by decide) (by decide) rfl (by decide) rfl (by decide) (by decide) (by decide) rfl).1
      [['c', 'a', 't'], LT, ['i', 'n'], PIPE, ['w', 'c']] [] [['w', 'c']] (by decide)⟩

/-- C3.  In the child of an external command whose vector holds a `|`, the
scan sets `pipe_pos` to the index of the first `|` among the tokens left once
a trailing `&` is removed; the argument list at `&args[pipe_pos + 1]` is
exactly the tokens behind that `|`, any further `|` included; and the
right-hand process (the second `fork` returned 0, the opens and `pipe`
succeeded) calls `execvp` on that list, which replaces its image when the call
succeeds. -/
theorem first_pipe_splits (sys : Sys) (cmd : Token) (rest : List Token) (stale : Args)
    (hb : find_builtin cmd = none) (hp : PIPE ∈ cmd :: rest) (hc : sys.fork1 = 0)
    (hin : 0 ≤ sys.open_in) (hout : 0 ≤ sys.open_out) (hpipe : 0 ≤ sys.pipe)
    (hf2 : sys.fork2 = 0) :
    (execute_command sys (vec (cmd :: rest) stale)).locals.map Locals.pipe_pos
        = some ((pipeIndex (live (cmd :: rest)) : Nat) : Int) ∧
      argvAt (execute_command sys (vec (cmd :: rest) stale)).args
          (pipeIndex (live (cmd :: rest)) + 1)
        = (live (cmd :: rest)).drop (pipeIndex (live (cmd :: rest)) + 1) ∧
      Event.execvp ((live (cmd :: rest)).drop (pipeIndex (live (cmd :: rest)) + 1)).head?
          ((live (cmd :: rest)).drop (pipeIndex (live (cmd :: rest)) + 1))
        ∈ (execute_command sys (vec (cmd :: rest) stale)).trace ∧
      (sys.exec_ok = true → ∀ r rs,
        (live (cmd :: rest)).drop (pipeIndex (live (cmd :: rest)) + 1) = r :: rs →
        ∃ so, (execute_command sys (vec (cmd :: rest) stale)).outcome
          = .replaced r (r :: rs) .pipeRead so) := by
  have hm : PIPE ∈ live (cmd :: rest) := mem_live _ _ hp (by decide)
  obtain ⟨left, right, hl, hn⟩ := List.eq_append_cons_of_mem hm
  have hidx : pipeIndex (live (cmd :: rest)) = left.length := by
    rw [hl]
    exact pipeIndex_first left right hn
  have hdrop : (live (cmd :: rest)).drop (left.length + 1) = right := by
    rw [hl]
    have : left ++ PIPE :: right = (left ++ [PIPE]) ++ right := by simp
    rw [this]
    have hlen : left.length + 1 = (left ++ [PIPE]).length := by simp
    rw [hlen, List.drop_left]
  have hpp := planOf_pipe_pos _ stale left right hl hn
  have hpp1 : (planOf (cmd :: rest) stale).pipe_pos ≠ -1 := by rw [hpp]; omega
  have hstart : ((planOf (cmd :: rest) stale).pipe_pos + 1).toNat = left.length + 1 := by
    rw [hpp]; omega
  obtain ⟨hrd, hargv⟩ := planOf_right_args _ stale left right hl hn
  obtain ⟨hri1, hri2⟩ := redirect_input_ok sys (planOf (cmd :: rest) stale) hin hout
  rw [launch_right sys _ _ _ hpp1 hpipe hf2, hstart] at hri1 hri2
  have hlt : ¬ sys.fork1 < 0 := by omega
  rw [execute_command_external sys cmd rest stale hb, if_neg hlt, if_pos hc, hidx, hdrop]
  refine ⟨by simp [hpp], hargv, ?_, ?_⟩
  · apply List.mem_append_right
    apply hri2
    apply List.mem_append_right
    have := execvp_call sys (planOf (cmd :: rest) stale).args (left.length + 1) .pipeRead
      (stdoutOf (planOf (cmd :: rest) stale)) "execvp for piped command failed"
    rw [hrd, hargv] at this
    exact this
  · intro hex r rs hr
    refine ⟨stdoutOf (planOf (cmd :: rest) stale), ?_⟩
    show (redirect_input sys (planOf (cmd :: rest) stale)).1 = _
    rw [hri1, execvp_ok sys _ _ _ _ _ r (by rw [hrd, hr]; rfl) hex, hargv, hr]

theorem first_pipe_splits_witness :
    find_builtin ['l', 's'] = none ∧ PIPE ∈ [['l', 's'], PIPE, ['w', 'c'], PIPE, ['x'], AMP] ∧
      argvAt (execute_command ⟨0, 0, 3, 4, 0, 0, true⟩
          (vec [['l', 's'], PIPE, ['w', 'c'], PIPE, ['x'], AMP] [])).args
          (pipeIndex (live [['l', 's'], PIPE, ['w', 'c'], PIPE, ['x'], AMP]) + 1)
        = (live [['l', 's'], PIPE, ['w', 'c'], PIPE, ['x'], AMP]).drop
            (pipeIndex (live [['l', 's'], PIPE, ['w', 'c'], PIPE, ['x'], AMP]) + 1) :=
  ⟨rfl, by decide,
    (first_pipe_splits ⟨0, 0, 3, 4, 0, 0, true⟩ ['l', 's'] [PIPE, ['w', 'c'], PIPE, ['x'], AMP] []
      rfl (by decide) rfl (by decide) (by decide) (by decide) rfl).2.1⟩

/-- C4 (as stated, refuted).  On `cat <` the child, when `execvp` succeeds,
replaces its image with `cat`: a program is executed for the command. -/
theorem dangling_redirection_counterexample :
    (execute_command ⟨0, 0, 0, 0, 0, 0, true⟩ (vec [['c', 'a', 't'], LT] [])).outcome
      = .replaced ['c', 'a', 't'] [['c', 'a', 't']] .inherited .inherited := by
  decide

/-- C4 (amended).  When the last live token of an external command is a
redirection operator and no `|` stands in front of it, the control process
returns 1, and in the child the operator's slot is overwritten by `NULL`, its
file target is `NULL` so that no file is opened for it and the stream stays
inherited, and the child replaces its image with the program of the first
token when the remaining opens and `execvp` succeed. -/
theorem dangling_redirection_runs (sys : Sys) (cmd : Token) (mid : List Token) (op : Token)
    (toks : List Token) (stale : Args) (hl : live toks = cmd :: mid ++ [op])
    (hop : op = LT ∨ op = GT ∨ op = GTGT) (hn : PIPE ∉ mid)
    (hb : find_builtin cmd = none) (hcmd : cmd ∉ [LT, GT, GTGT, PIPE]) :
    (sys.fork1 ≠ 0 → (execute_command sys (vec toks stale)).outcome = .returned 1) ∧
      (sys.fork1 = 0 →
        rd (execute_command sys (vec toks stale)).args ((live toks).length - 1) = none ∧
        (∃ loc, (execute_command sys (vec toks stale)).locals = some loc ∧
          loc.pipe_pos = -1 ∧ (op = LT → loc.inputFile = none) ∧
          (op ≠ LT → loc.outputFile = none)) ∧
        (0 ≤ sys.open_in → 0 ≤ sys.open_out → sys.exec_ok = true →
          ∃ argv si so, (execute_command sys (vec toks stale)).outcome
              = .replaced cmd argv si so ∧
            (op = LT → si = .inherited) ∧ (op ≠ LT → so = .inherited))) := by
  obtain ⟨rest, rfl⟩ := live_cons toks cmd _ hl
  have hnp : PIPE ∉ cmd :: mid := by
    simp only [List.mem_cons, List.mem_singleton, List.not_mem_nil, or_false, not_or] at hcmd
    intro h
    rcases List.mem_cons.1 h with h | h
    · exact hcmd.2.2.2 h.symm
    · exact hn h
  have hnp2 : PIPE ∉ live (cmd :: rest) := by
    rw [hl]
    intro h
    rcases List.mem_append.1 h with h | h
    · exact hnp h
    · simp only [List.mem_singleton] at h
      rcases hop with e | e | e <;> (rw [e] at h; revert h; decide)
  have hpp := planOf_pipe_pos_none (cmd :: rest) stale hnp2
  have hin : op = LT → (planOf (cmd :: rest) stale).inputFile = none := by
    intro e
    simp only [planOf, withStale, hl, e]
    exact scanList_dangling_in (cmd :: mid) hnp _ _
  have hout : op ≠ LT → (planOf (cmd :: rest) stale).outputFile = none := by
    intro e
    have hop2 : op = GT ∨ op = GTGT := by
      rcases hop with h | h | h
      · exact absurd h e
      · exact Or.inl h
      · exact Or.inr h
    simp only [planOf, withStale, hl]
    exact scanList_dangling_out (cmd :: mid) op hop2 hnp _ _
  rw [execute_command_external sys cmd rest stale hb]
  constructor
  · intro hne
    split_ifs <;> rfl
  · intro hc
    have hlt : ¬ sys.fork1 < 0 := by omega
    rw [if_neg hlt, if_pos hc]
    refine ⟨?_, ⟨_, rfl, hpp, hin, hout⟩, ?_⟩
    · show rd (planOf (cmd :: rest) stale).args _ = none
      rw [planOf_args, hl]
      have := rd_last_masked (cmd :: mid) op (staleAfter (cmd :: rest) stale) hop hnp
      simpa using this
    · intro hoin hoout hex
      obtain ⟨hri, _⟩ := redirect_input_ok sys (planOf (cmd :: rest) stale) hoin hoout
      refine ⟨argvAt (planOf (cmd :: rest) stale).args 0, stdinOf (planOf (cmd :: rest) stale),
        stdoutOf (planOf (cmd :: rest) stale), ?_, ?_, ?_⟩
      · show (redirect_input sys (planOf (cmd :: rest) stale)).1 = _
        rw [hri, launch_simple sys _ _ _ hpp,
          execvp_ok sys _ _ _ _ _ cmd (planOf_rd_zero _ stale cmd _ hl hcmd) hex]
      · intro e
        simp [stdinOf, hin e]
      · intro e
        simp [stdoutOf, hout e]

theorem dangling_redirection_runs_witness :
    live [['c', 'a', 't'], ['f'], GT, AMP] = ['c', 'a', 't'] :: [['f']] ++ [GT] ∧
      find_builtin ['c', 'a', 't'] = none ∧
      (execute_command ⟨42, 0, 3, 4, 0, 0, true⟩
        (vec [['c', 'a', 't'], ['f'], GT, AMP] [])).outcome = .returned 1 :=
  ⟨by decide, rfl,
    (dangling_redirection_runs ⟨42, 0, 3, 4, 0, 0, true⟩ ['c', 'a', 't'] [['f']] GT
      [['c', 'a', 't'], ['f'], GT, AMP] [] (by decide) (by decide) (by decide) rfl
      (by decide)).1 (by decide)⟩

/-- C5 (as stated, refuted).  On `ls | wc &` the child's plan has the
background flag set and the pipe split point at index 1. -/
theorem background_with_pipe_counterexample :
    (execute_command ⟨0, 0, 0, 0, 0, 0, true⟩
        (vec [['l', 's'], PIPE, ['w', 'c'], AMP] [])).locals.map
          (fun loc => (loc.background, loc.pipe_pos)) = some (1, 1) := by
  decide

/-- C5 (amended).  In the child of an external command the background flag is
1 exactly when the last token is `&` (and 0 otherwise), and the pipe split
point stays at -1 exactly when no `|` occurs among the tokens left once that
`&` is removed: the two are decided independently of each other. -/
theorem background_independent_of_pipe (sys : Sys) (cmd : Token) (rest : List Token)
    (stale : Args) (hb : find_builtin cmd = none) (hc : sys.fork1 = 0) :
    (execute_command sys (vec (cmd :: rest) stale)).locals.map Locals.background
        = some (if (cmd :: rest).getLast? = some AMP then 1 else 0) ∧
      ((execute_command sys (vec (cmd :: rest) stale)).locals.map Locals.pipe_pos = some (-1)
        ↔ PIPE ∉ live (cmd :: rest)) := by
  rw [execute_command_external sys cmd rest stale hb]
  have hlt : ¬ sys.fork1 < 0 := by omega
  rw [if_neg hlt, if_pos hc]
  refine ⟨rfl, ?_⟩
  by_cases hm : PIPE ∈ live (cmd :: rest)
  · obtain ⟨left, right, hl, hn⟩ := List.eq_append_cons_of_mem hm
    simp only [Option.map_some', Option.some.injEq, planOf_pipe_pos _ stale left right hl hn, hm,
      not_true_eq_false, iff_false]
    omega
  · simp [planOf_pipe_pos_none _ stale hm, hm]

theorem background_independent_of_pipe_witness :
    find_builtin ['l', 's'] = none ∧
      (execute_command ⟨0, 0, 3, 4, 0, 0, true⟩
          (vec [['l', 's'], PIPE, ['w', 'c'], AMP] [])).locals.map Locals.background
        = some (if [['l', 's'], PIPE, ['w', 'c'], AMP].getLast? = some AMP then 1 else 0) :=
  ⟨rfl,
    (background_independent_of_pipe ⟨0, 0, 3, 4, 0, 0, true⟩ ['l', 's'] [PIPE, ['w', 'c'], AMP] []
      rfl rfl).1⟩

/-- C6.  In the control process (the value `fork` returns there is not 0), on a
non-empty vector, `execute_command` returns 0 exactly when the first token is
`exit`, and returns 1 for every other first token: `cd`, `help`, an external
command, or a failed `fork`. -/
theorem exit_is_only_terminator (sys : Sys) (cmd : Token) (rest : List Token) (stale : Args)
    (hp : sys.fork1 ≠ 0) :
    ((execute_command sys (vec (cmd :: rest) stale)).outcome = .returned 0 ↔ cmd = EXIT) ∧
      (cmd ≠ EXIT → (execute_command sys (vec (cmd :: rest) stale)).outcome = .returned 1) := by
  have h0 : rd (vec (cmd :: rest) stale) 0 = some cmd := rfl
  by_cases hb : cmd ∈ builtin_str
  · rcases builtin_str_cases cmd hb with hc | hc | hc
    · rw [execute_command_builtin sys _ cmd shell_cd h0 (by rw [hc]; rfl)]
      have hne : cmd ≠ EXIT := by rw [hc]; decide
      have h1 : (shell_cd sys (vec (cmd :: rest) stale)).1 = 1 := by
        unfold shell_cd
        split
        · rfl
        · split_ifs <;> rfl
      simp [h1, hne]
    · rw [execute_command_builtin sys _ cmd shell_exit h0 (by rw [hc]; rfl)]
      simp [shell_exit, hc]
    · rw [execute_command_builtin sys _ cmd shell_help h0 (by rw [hc]; rfl)]
      have hne : cmd ≠ EXIT := by rw [hc]; decide
      simp [shell_help, hne]
  · have hne : cmd ≠ EXIT := fun e => hb (by rw [e]; decide)
    rw [execute_command_external sys cmd rest stale (find_builtin_none cmd hb)]
    split_ifs <;> simp [hne]

theorem exit_is_only_terminator_witness :
    (42 : Int) ≠ 0 ∧
      (execute_command ⟨42, 0, 3, 4, 0, 0, true⟩ (vec [EXIT, ['n', 'o', 'w']] [])).outcome
        = .returned 0 :=
  ⟨by decide,
    (exit_is_only_terminator ⟨42, 0, 3, 4, 0, 0, true⟩ EXIT [['n', 'o', 'w']] []
      (by decide)).1.2 rfl⟩

/-- C7.  For an external command whose `fork` succeeded: `background` is 1 if
the last token is `&` and 0 otherwise.  When it is `&`, the slot is overwritten
by `NULL`, every `execvp` of the child takes its arguments from the tokens in
front of it, and the parent waits on nothing and prints the child's pid.  When
it is not, the parent's only `waitpid` is on the pid its `fork` returned. -/
theorem background_iff_trailing_amp (sys sysc : Sys) (cmd : Token) (rest : List Token)
    (stale : Args) (hb : find_builtin cmd = none) (hp : 0 < sys.fork1) (hc : sysc.fork1 = 0) :
    (execute_command sys (vec (cmd :: rest) stale)).outcome = .returned 1 ∧
      (execute_command sys (vec (cmd :: rest) stale)).locals.map Locals.background
        = some (if (cmd :: rest).getLast? = some AMP then 1 else 0) ∧
      ((cmd :: rest).getLast? = some AMP →
        (execute_command sys (vec (cmd :: rest) stale)).args
            = vec (cmd :: rest).dropLast (none :: stale) ∧
          waits (execute_command sys (vec (cmd :: rest) stale)).trace = [] ∧
          Event.print ("Started background job with PID: " ++ toString sys.fork1 ++ "\n")
            ∈ (execute_command sys (vec (cmd :: rest) stale)).trace ∧
          ∀ f a, Event.execvp f a ∈ (execute_command sysc (vec (cmd :: rest) stale)).trace →
            a.Sublist (cmd :: rest).dropLast) ∧
      ((cmd :: rest).getLast? ≠ some AMP →
        waits (execute_command sys (vec (cmd :: rest) stale)).trace = [sys.fork1]) := by
  have hsub := child_execvp_sublist sysc cmd rest stale hb hc
  rw [execute_command_external sys cmd rest stale hb]
  have h1 : ¬ sys.fork1 < 0 := by omega
  have h2 : ¬ sys.fork1 = 0 := by omega
  have hw : ∀ tr : List Event, waits (prologue sys.fork1 (cmd :: rest) ++ tr) = waits tr := by
    intro tr
    have := prologue_waits sys.fork1 (cmd :: rest)
    unfold waits at this ⊢
    rw [List.filterMap_append, this, List.nil_append]
  by_cases ha : (cmd :: rest).getLast? = some AMP
  · have hbg : bgFlag (cmd :: rest) ≠ 0 := by simp [bgFlag, ha]
    simp only [h1, h2, hbg, if_false, ha, if_true]
    refine ⟨by trivial, by simp [bgFlag, ha], fun _ => ⟨?_, ?_, ?_, ?_⟩, fun h => absurd rfl h⟩
    · simp [live, staleAfter, ha]
    · rw [hw]; rfl
    · simp
    · intro f a he
      have := hsub f a he
      simpa [live, ha] using this
  · have hbg : bgFlag (cmd :: rest) = 0 := by simp [bgFlag, ha]
    simp only [h1, h2, hbg, if_false, ha, if_true]
    refine ⟨by trivial, by simp [bgFlag, ha], fun h => absurd h (by simp), fun _ => ?_⟩
    rw [hw]; rfl

theorem background_iff_trailing_amp_witness :
    find_builtin ['s', 'l', 'e', 'e', 'p'] = none ∧ (0 : Int) < 42 ∧
      waits (execute_command ⟨42, 0, 3, 4, 0, 0, true⟩
        (vec [['s', 'l', 'e', 'e', 'p'], ['5'], AMP] [])).trace = [] :=
  ⟨rfl, by decide,
    ((background_iff_trailing_amp ⟨42, 0, 3, 4, 0, 0, true⟩ ⟨0, 0, 3, 4, 0, 0, true⟩
      ['s', 'l', 'e', 'e', 'p'] [['5'], AMP] [] rfl (by decide) rfl).2.2.1 rfl).2.1⟩

/-- C8.  When the first token is `cd`, `exit` or `help`, `execute_command`
returns the handler's result with no `fork`, `pipe` or `execvp` in its trace and
the vector untouched, whatever the other slots hold. -/
theorem builtin_never_forks (sys : Sys) (args : Args) (cmd : Token)
    (h0 : rd args 0 = some cmd) (hb : cmd ∈ builtin_str) :
    (∀ e ∈ (execute_command sys args).trace, e.createsProcess = false) ∧
      (∃ f, find_builtin cmd = some f ∧
        (execute_command sys args).outcome = .returned (f sys args).1) ∧
      (execute_command sys args).args = args := by
  have key : ∀ f, find_builtin cmd = some f →
      (∀ e ∈ (f sys args).2, e.createsProcess = false) →
      (∀ e ∈ (execute_command sys args).trace, e.createsProcess = false) ∧
      (∃ f, find_builtin cmd = some f ∧
        (execute_command sys args).outcome = .returned (f sys args).1) ∧
      (execute_command sys args).args = args := by
    intro f hf hev
    rw [execute_command_builtin sys args cmd f h0 hf]
    refine ⟨?_, ⟨f, hf, rfl⟩, rfl⟩
    intro e he
    rcases List.mem_cons.1 he with he | he
    · subst he; rfl
    · exact hev e he
  rcases builtin_str_cases cmd hb with hc | hc | hc
  · refine key shell_cd (by rw [hc]; rfl) ?_
    intro e he
    unfold shell_cd at he
    split at he
    · simp only [List.mem_cons, List.mem_singleton, List.not_mem_nil, or_false] at he
      rcases he with he | he <;> (subst he; rfl)
    · split_ifs at he
      · simp only [List.mem_cons, List.mem_singleton, List.not_mem_nil, or_false] at he
        rcases he with he | he | he <;> (subst he; rfl)
      · simp only [List.mem_cons, List.mem_singleton, List.not_mem_nil, or_false] at he
        rcases he with he | he <;> (subst he; rfl)
  · refine key shell_exit (by rw [hc]; rfl) ?_
    intro e he
    simp [shell_exit] at he
  · refine key shell_help (by rw [hc]; rfl) ?_
    intro e he
    simp only [shell_help, List.mem_append, List.mem_cons, List.mem_map, List.mem_singleton,
      List.not_mem_nil, or_false] at he
    rcases he with (he | he) | he
    · rcases he with he | he | he <;> (subst he; rfl)
    · obtain ⟨x, _, rfl⟩ := he
      rfl
    · rcases he with he | he <;> (subst he; rfl)

theorem builtin_never_forks_witness :
    rd (vec [CD, PIPE, ['x'], AMP] []) 0 = some CD ∧ CD ∈ builtin_str ∧
      (execute_command ⟨42, 0, 3, 4, 0, 0, true⟩ (vec [CD, PIPE, ['x'], AMP] [])).args
        = vec [CD, PIPE, ['x'], AMP] [] :=
  ⟨rfl, by decide,
    (builtin_never_forks ⟨42, 0, 3, 4, 0, 0, true⟩ (vec [CD, PIPE, ['x'], AMP] []) CD rfl
      (by decide)).2.2⟩

/-- C9.  For a line that is empty or holds only delimiters, the tokenizer puts
the sentinel in `args[0]`, and `execute_command` returns 1 having read
`args[0]` and done nothing else: no handler, no process, no write to `args`. -/
theorem blank_line_noop (sys : Sys) (old : Args) (line : List Char)
    (h : old.length = MAX_ARGS) (hw : ∀ c ∈ line, c ∈ delim) :
    rd (tokenize old line) 0 = none ∧
      execute_command sys (tokenize old line) =
        { outcome := .returned 1, args := tokenize old line, trace := [.load 0],
          locals := none } := by
  have hruns : maximalRuns (cutAtNewline (cstring line)) = [] := by
    apply maximalRuns_all_delim
    intro c hc
    have h1 : c ∈ cstring line := (List.takeWhile_sublist _).subset hc
    exact hw c ((List.takeWhile_sublist _).subset h1)
  have h0 : rd (tokenize old line) 0 = none := by
    rw [tokenize_vec old line h, hruns]
    rfl
  exact ⟨h0, execute_command_empty sys _ h0⟩

theorem blank_line_noop_witness :
    (List.replicate 64 (none : Slot)).length = MAX_ARGS ∧
      (∀ c ∈ [' ', '\t', '\n'], c ∈ delim) ∧
      rd (tokenize (List.replicate 64 none) [' ', '\t', '\n']) 0 = none :=
  ⟨by decide, by decide,
    (blank_line_noop ⟨42, 0, 3, 4, 0, 0, true⟩ (List.replicate 64 none) [' ', '\t', '\n']
      (by decide) (by decide)).1⟩

/-- C10.  On a vector produced by the tokenizer the end sentinel lies inside
the 64-slot array, and every slot `execute_command` loads or stores, in any of
its processes, has an index between 0 and the index of that sentinel. -/
theorem scan_in_bounds (sys : Sys) (old : Args) (line : List Char) (h : old.length = MAX_ARGS) :
    sentinelIndex (tokenize old line) < MAX_ARGS ∧
      ∀ e ∈ (execute_command sys (tokenize old line)).trace, ∀ k, e.slot = some k →
        k ≤ sentinelIndex (tokenize old line) := by
  rw [tokenize_vec old line h, sentinelIndex_vec]
  refine ⟨?_, fun e he k hk => execute_command_slot_bound sys _ _ e he k hk⟩
  have := List.length_take_le (MAX_ARGS - 1) (maximalRuns (cutAtNewline (cstring line)))
  simp only [MAX_ARGS] at this ⊢
  omega

theorem scan_in_bounds_witness :
    (List.replicate 64 (none : Slot)).length = MAX_ARGS ∧
      2 ≤ sentinelIndex (tokenize (List.replicate 64 none) ['c', 'a', 't', ' ', '<', '\n']) :=
  ⟨by decide,
    (scan_in_bounds ⟨0, 0, 3, 4, 0, 0, true⟩ (List.replicate 64 none)
      ['c', 'a', 't', ' ', '<', '\n'] (by decide)).2 (.load 2) (by decide) 2 rfl⟩

end Shell
